import Mathlib

/-!
# Reflection-Checker: a verification development

The program (`main.go`) reads URLs from a file, replaces every query-parameter
value by a marker, issues a GET and reports the URLs whose response body
contains the marker.

The file is organised as follows.

* Part 1 embeds the pieces of the Go standard library the program calls
  (`strings`, `net/url`, `net/netip`, `net/http`), over byte strings,
  following Go 1.26.
* Part 2 embeds `main.go` itself: `colorizeText`, `replaceParamsInURL`, the
  body of the goroutine launched by `processRequests`, and the concurrent
  system made of `main`, `processRequests` and the probing goroutines, as a
  step function over an explicit state.
* Part 3 holds the lemmas, Part 4 the statements about the program.
-/

set_option maxRecDepth 8000

namespace ReflectionChecker

/-! ## Part 1a: byte strings and the `strings` package -/

/-- A Go `byte`. -/
abbrev Byte := Fin 256

/-- A Go `string`: a finite sequence of bytes. -/
abbrev GoString := List Byte

/-- The bytes of a string literal (Go source text is UTF-8). -/
def lit (s : String) : GoString :=
  (s.toList.flatMap String.utf8EncodeChar).map (fun b => b.val)

/-- `strings.Cut(s, sep)` for a one-byte separator: the text before the first
`sep` and the text after it (all of `s` and the empty string when `sep` does
not occur). -/
def cut (sep : Byte) (s : GoString) : GoString × GoString :=
  (s.takeWhile (fun c => c != sep), (s.dropWhile (fun c => c != sep)).drop 1)

/-- `strings.Contains(s, string(c))` for a single byte. -/
def containsByte (s : GoString) (c : Byte) : Bool := s.contains c

/-- `strings.Count(s, string(c))` for a single byte. -/
def countByte (s : GoString) (c : Byte) : Nat := s.count c

/-- `strings.HasPrefix(s, p)`. -/
def startsWith (s p : GoString) : Bool := p.isPrefixOf s

/-- `strings.HasSuffix(s, p)`. -/
def endsWith (s p : GoString) : Bool := p.isSuffixOf s

/-- `strings.Index(s, sub)`: the position of the first occurrence of `sub`. -/
def indexOf (sub : GoString) : GoString → Option Nat
  | [] => if sub.isEmpty then some 0 else none
  | c :: s =>
    if sub.isPrefixOf (c :: s) then some 0
    else (indexOf sub s).map (fun i => i + 1)

/-- `strings.Contains(s, sub)`: `sub` occurs in `s` as a contiguous run of
bytes. -/
def Contains (s sub : GoString) : Bool := (indexOf sub s).isSome

/-- `strings.LastIndex(s, string(c))` for a single byte. -/
def lastIndexByte (c : Byte) : GoString → Option Nat
  | [] => none
  | d :: s =>
    match lastIndexByte c s with
    | some i => some (i + 1)
    | none => if d = c then some 0 else none

/-- `strings.ToLower` on one byte of an ASCII string. -/
def toLowerByte (c : Byte) : Byte :=
  if 65 ≤ c.val ∧ c.val ≤ 90 then c + 32 else c

/-- `strings.ToLower`, used by the program only on a scheme, which is made of
ASCII letters, digits, `+`, `-` and `.`. -/
def toLower (s : GoString) : GoString := s.map toLowerByte

/-! ## Part 1b: `net/url` escaping -/

/-- The `encoding` modes of `net/url`. -/
inductive Encoding
  | encodePath
  | encodePathSegment
  | encodeHost
  | encodeZone
  | encodeUserPassword
  | encodeQueryComponent
  | encodeFragment
  deriving DecidableEq, Repr

/-- The errors `url.Parse` can return. -/
inductive ParseError
  | invalidControlCharacter
  | missingProtocolScheme
  | firstPathSegmentColon
  | escapeError (s : GoString)
  | invalidHostError (s : GoString)
  | missingBracket
  | invalidPort (p : GoString)
  | invalidUserinfo
  | invalidIPLiteral
  deriving DecidableEq, Repr

/-- ASCII letter or digit. -/
def isAlnum (c : Byte) : Bool :=
  (97 ≤ c.val && c.val ≤ 122) || (65 ≤ c.val && c.val ≤ 90) || (48 ≤ c.val && c.val ≤ 57)

/-- `ishex`. -/
def ishex (c : Byte) : Bool :=
  (48 ≤ c.val && c.val ≤ 57) || (97 ≤ c.val && c.val ≤ 102) || (65 ≤ c.val && c.val ≤ 70)

/-- `unhex`. -/
def unhex (c : Byte) : Byte :=
  if 48 ≤ c.val ∧ c.val ≤ 57 then c - 48
  else if 97 ≤ c.val ∧ c.val ≤ 102 then c - 97 + 10
  else if 65 ≤ c.val ∧ c.val ≤ 70 then c - 65 + 10
  else 0

/-- The byte `upperhex[n]` of the table `"0123456789ABCDEF"`. -/
def upperhex (n : Nat) : Byte :=
  if n < 10 then Fin.ofNat (48 + n) else Fin.ofNat (55 + n)

/-- The byte written as the two hex digits `h1 h2`: `unhex(h1)<<4 | unhex(h2)`. -/
def hexValue (h1 h2 : Byte) : Byte :=
  Fin.ofNat ((unhex h1).val * 16 + (unhex h2).val)

/-- The host sub-delimiters `! $ & ' ( ) * + , ; = : [ ] < > "`. -/
def hostSubDelims : List Byte := [33, 36, 38, 39, 40, 41, 42, 43, 44, 59, 61, 58, 91, 93, 60, 62, 34]

/-- The reserved characters `$ & + , / : ; = ? @`. -/
def reservedBytes : List Byte := [36, 38, 43, 44, 47, 58, 59, 61, 63, 64]

/-- `shouldEscape(c, mode)`. -/
def shouldEscape (c : Byte) (mode : Encoding) : Bool :=
  if isAlnum c then false
  else if (mode = .encodeHost ∨ mode = .encodeZone) ∧ c ∈ hostSubDelims then false
  else if c = 45 ∨ c = 95 ∨ c = 46 ∨ c = 126 then false
  else if c ∈ reservedBytes ∧ mode = .encodePath then c = 63
  else if c ∈ reservedBytes ∧ mode = .encodePathSegment then
    c = 47 ∨ c = 59 ∨ c = 44 ∨ c = 63
  else if c ∈ reservedBytes ∧ mode = .encodeUserPassword then
    c = 64 ∨ c = 47 ∨ c = 63 ∨ c = 58
  else if c ∈ reservedBytes ∧ mode = .encodeQueryComponent then true
  else if c ∈ reservedBytes ∧ mode = .encodeFragment then false
  else if mode = .encodeFragment ∧ (c = 33 ∨ c = 40 ∨ c = 41 ∨ c = 42) then false
  else true

/-- One byte of `escape`. -/
def escapeByte (mode : Encoding) (c : Byte) : GoString :=
  if c = 32 ∧ mode = .encodeQueryComponent then [43]
  else if shouldEscape c mode then [37, upperhex (c.val / 16), upperhex (c.val % 16)]
  else [c]

/-- `escape(s, mode)`. -/
def escape (s : GoString) (mode : Encoding) : GoString :=
  s.flatMap (escapeByte mode)

/-- `unescape(s, mode)`: the checks of the first pass and the decoding of the
second, position by position. -/
def unescape (mode : Encoding) : GoString → Except ParseError GoString
  | [] => .ok []
  | [c] =>
    if c = 37 then .error (.escapeError [c])
    else if c = 43 then .ok [if mode = .encodeQueryComponent then 32 else 43]
    else if (mode = .encodeHost ∨ mode = .encodeZone) ∧ c.val < 128 ∧ shouldEscape c .encodeHost then
      .error (.invalidHostError [c])
    else .ok [c]
  | [c, d] =>
    if c = 37 then .error (.escapeError [c, d])
    else if c = 43 then
      (unescape mode [d]).map (fun t => (if mode = .encodeQueryComponent then 32 else 43) :: t)
    else if (mode = .encodeHost ∨ mode = .encodeZone) ∧ c.val < 128 ∧ shouldEscape c .encodeHost then
      .error (.invalidHostError [c])
    else (unescape mode [d]).map (fun t => c :: t)
  | c :: h1 :: h2 :: s =>
    if c = 37 then
      if !(ishex h1 && ishex h2) then .error (.escapeError [c, h1, h2])
      else if mode = .encodeHost ∧ (unhex h1).val < 8 ∧ [c, h1, h2] ≠ [37, 50, 53] then
        .error (.escapeError [c, h1, h2])
      else if mode = .encodeZone ∧ [c, h1, h2] ≠ [37, 50, 53] ∧ hexValue h1 h2 ≠ 32
          ∧ shouldEscape (hexValue h1 h2) .encodeHost then
        .error (.escapeError [c, h1, h2])
      else (unescape mode s).map (fun t => hexValue h1 h2 :: t)
    else if c = 43 then
      (unescape mode (h1 :: h2 :: s)).map
        (fun t => (if mode = .encodeQueryComponent then 32 else 43) :: t)
    else if (mode = .encodeHost ∨ mode = .encodeZone) ∧ c.val < 128 ∧ shouldEscape c .encodeHost then
      .error (.invalidHostError [c])
    else (unescape mode (h1 :: h2 :: s)).map (fun t => c :: t)

/-- `url.QueryEscape`. -/
def QueryEscape (s : GoString) : GoString := escape s .encodeQueryComponent

/-- `url.QueryUnescape`. -/
def QueryUnescape (s : GoString) : Except ParseError GoString :=
  unescape .encodeQueryComponent s

/-- `validEncoding(s, mode)`. -/
def validEncoding (s : GoString) (mode : Encoding) : Bool :=
  s.all fun c =>
    if c ∈ ([33, 36, 38, 39, 40, 41, 42, 43, 44, 59, 61, 58, 64] : List Byte) then true
    else if c = 91 ∨ c = 93 then true
    else if c = 37 then true
    else !shouldEscape c mode

/-! ## Part 1c: `url.Values` -/

deriving instance DecidableEq for Except

/-- Assigning `m[k] = v` in a Go map, kept as an association list with one
entry per key: the entry of `k` is replaced where it stands, a new key goes to
the end. -/
def mapSet {ν : Type} (m : List (GoString × ν)) (k : GoString) (v : ν) : List (GoString × ν) :=
  match m with
  | [] => [(k, v)]
  | (k', v') :: m' => if k' = k then (k, v) :: m' else (k', v') :: mapSet m' k v

/-- The keys of a Go map. The order in which `range` visits them is not
specified by Go; here it is the order of the association list. -/
def mapKeys {ν : Type} (m : List (GoString × ν)) : List GoString := m.map Prod.fst

/-- The type `url.Values`, a `map[string][]string`. -/
abbrev Values := List (GoString × List GoString)

/-- Reading `v[key]`: the empty slice when the key is absent. -/
def Values.get (v : Values) (key : GoString) : List GoString := (v.lookup key).getD []

/-- `Values.Set(key, value)`: `v[key] = []string{value}`. -/
def Values.Set (v : Values) (key value : GoString) : Values := mapSet v key [value]

/-- The statement `m[key] = append(m[key], value)` of `parseQuery`. -/
def Values.append (v : Values) (key value : GoString) : Values :=
  mapSet v key (v.get key ++ [value])

/-- One turn of the loop of `parseQuery`, on the text `seg` between two `&`:
a piece holding a semicolon, an empty piece, or one whose key or value does
not unescape is skipped (the error is recorded and the loop goes on). -/
def parseQuerySegment (m : Values) (seg : GoString) : Values :=
  if containsByte seg 59 then m
  else if seg = [] then m
  else
    match QueryUnescape (cut 61 seg).1 with
    | .error _ => m
    | .ok key =>
      match QueryUnescape (cut 61 seg).2 with
      | .error _ => m
      | .ok value => m.append key value

/-- The limit of `net/url` on the number of parameters of a query (the
default of the setting `urlmaxqueryparams`). -/
def maxQueryParams : Nat := 10000

/-- The map filled by `url.ParseQuery(query)`; this is `URL.Query()`, which
drops the error. A query of more than `maxQueryParams` pieces is refused
before anything is read, and the map stays empty; otherwise the loop of
`parseQuery` cuts the query at each `&` in turn. -/
def ParseQuery (query : GoString) : Values :=
  if maxQueryParams < countByte query 38 + 1 then []
  else (query.splitOn 38).foldl parseQuerySegment []

/-- The call `slices.Sort(keys)` of `Encode`: byte-wise lexicographic order. -/
def sortKeys (keys : List GoString) : List GoString := keys.insertionSort (fun a b => a ≤ b)

/-- The text `QueryEscape(key)=QueryEscape(value)` that `Encode` writes for one
value of one key. -/
def encodePair (key value : GoString) : GoString := QueryEscape key ++ [61] ++ QueryEscape value

/-- `Values.Encode()`: the keys sorted, each value written as
`QueryEscape(key)=QueryEscape(value)`, the pairs joined by `&`. -/
def Values.Encode (v : Values) : GoString :=
  [38].intercalate ((sortKeys (mapKeys v)).flatMap fun k => (v.get k).map (encodePair k))

/-! ## Part 1d: `url.URL`, `url.Parse` and `URL.String` -/

/-- The type `url.Userinfo`. -/
structure Userinfo where
  username : GoString
  password : GoString
  passwordSet : Bool
  deriving DecidableEq, Repr

/-- The type `url.URL`. -/
structure URL where
  Scheme : GoString := []
  Opaque : GoString := []
  User : Option Userinfo := none
  Host : GoString := []
  Path : GoString := []
  RawPath : GoString := []
  OmitHost : Bool := false
  ForceQuery : Bool := false
  RawQuery : GoString := []
  Fragment : GoString := []
  RawFragment : GoString := []
  deriving DecidableEq, Repr

/-- `stringContainsCTLByte`. -/
def stringContainsCTLByte (s : GoString) : Bool :=
  s.any fun b => b.val < 32 || b.val = 127

/-- The loop of `getScheme` from position `i` on, `seen` being the bytes
already passed (in reverse) and `rawURL` the whole input. -/
def getSchemeLoop (rawURL : GoString) :
    GoString → GoString → Except ParseError (GoString × GoString)
  | _, [] => .ok ([], rawURL)
  | seen, c :: s =>
    if (97 ≤ c.val ∧ c.val ≤ 122) ∨ (65 ≤ c.val ∧ c.val ≤ 90) then
      getSchemeLoop rawURL (c :: seen) s
    else if (48 ≤ c.val ∧ c.val ≤ 57) ∨ c = 43 ∨ c = 45 ∨ c = 46 then
      if seen = [] then .ok ([], rawURL) else getSchemeLoop rawURL (c :: seen) s
    else if c = 58 then
      if seen = [] then .error .missingProtocolScheme else .ok (seen.reverse, s)
    else .ok ([], rawURL)

/-- `getScheme(rawURL)`: the scheme and the rest. -/
def getScheme (rawURL : GoString) : Except ParseError (GoString × GoString) :=
  getSchemeLoop rawURL [] rawURL

/-- `validOptionalPort`. -/
def validOptionalPort (port : GoString) : Bool :=
  match port with
  | [] => true
  | c :: ds => c = 58 && ds.all fun b => 48 ≤ b.val && b.val ≤ 57

/-- `validUserinfo`. -/
def validUserinfo (s : GoString) : Bool :=
  s.all fun r =>
    isAlnum r ||
      r ∈ ([45, 46, 95, 58, 126, 33, 36, 38, 39, 40, 41, 42, 43, 44, 59, 61, 37, 64] : List Byte)

/-- `strings.IndexByte(s, c)`. -/
def indexByte (c : Byte) : GoString → Option Nat
  | [] => none
  | d :: s => if d = c then some 0 else (indexByte c s).map (fun i => i + 1)

/-- The loop of `parseIPv4Fields` of `net/netip`, as a test: `val` is the
octet read so far, `pos` the number of dots passed, `digLen` the number of
digits of the octet, `first` whether the byte is the first one, `prevDot`
whether the byte before was a dot. -/
def ipv4FieldsLoop : Nat → Nat → Nat → Bool → Bool → GoString → Bool
  | _, pos, _, _, _, [] => decide (3 ≤ pos)
  | val, pos, digLen, first, prevDot, c :: s =>
    if 48 ≤ c.val ∧ c.val ≤ 57 then
      if digLen = 1 ∧ val = 0 then false
      else if 255 < val * 10 + (c.val - 48) then false
      else ipv4FieldsLoop (val * 10 + (c.val - 48)) pos (digLen + 1) false false s
    else if c = 46 then
      if first ∨ s = [] ∨ prevDot then false
      else if pos = 3 then false
      else ipv4FieldsLoop 0 (pos + 1) 0 false true s
    else false

/-- Whether `parseIPv4Fields` accepts `s`: four decimal octets. -/
def validIPv4Fields (s : GoString) : Bool := ipv4FieldsLoop 0 0 0 true false s

/-- The checks of `parseIPv6` once its loop is left: nothing is left over, and
an address of fewer than 16 bytes has a `::`, one of 16 bytes has none. -/
def ipv6Finish (i : Nat) (ellipsis : Bool) (s : GoString) : Bool :=
  if s ≠ [] then false else if i < 16 then ellipsis else !ellipsis

/-- The loop of `parseIPv6` of `net/netip`, as a test: `i` is the number of
bytes of the address filled, `ellipsis` whether a `::` was met. Each turn
reads one group of at most four hex digits (or a final dotted IPv4 part);
the loop makes at most eight turns. -/
def ipv6Loop : Nat → Nat → Bool → GoString → Bool
  | 0, i, ellipsis, s => ipv6Finish i ellipsis s
  | fuel + 1, i, ellipsis, s =>
    if ¬ i < 16 then ipv6Finish i ellipsis s
    else if 4 < (s.takeWhile ishex).length then false
    else if (s.takeWhile ishex).length = 0 then false
    else if (s.dropWhile ishex).head? = some 46 then
      if !ellipsis && i != 12 then false
      else if 16 < i + 4 then false
      else if !validIPv4Fields s then false
      else ipv6Finish (i + 4) ellipsis []
    else if s.dropWhile ishex = [] then ipv6Finish (i + 2) ellipsis []
    else if (s.dropWhile ishex).head? != some 58 then false
    else if (s.dropWhile ishex).length = 1 then false
    else if ((s.dropWhile ishex).drop 1).head? = some 58 then
      if ellipsis then false
      else if (s.dropWhile ishex).drop 2 = [] then ipv6Finish (i + 2) true []
      else ipv6Loop fuel (i + 2) true ((s.dropWhile ishex).drop 2)
    else ipv6Loop fuel (i + 2) ellipsis ((s.dropWhile ishex).drop 1)

/-- The first of the bytes `.`, `:`, `%` in `s`, on which `netip.ParseAddr`
chooses what to parse. -/
def addrKind : GoString → Option Byte
  | [] => none
  | c :: s => if c = 46 ∨ c = 58 ∨ c = 37 then some c else addrKind s

/-- Whether `netip.ParseAddr(s)` succeeds with an address that is not
`Is4`: `s` is an IPv6 address, possibly followed by `%` and a zone. -/
def isIPv6Literal (s : GoString) : Bool :=
  if addrKind s = some 58 then
    if containsByte s 37 && (cut 37 s).2 = [] then false
    else if startsWith (cut 37 s).1 [58, 58] then
      if (cut 37 s).1.drop 2 = [] then true else ipv6Loop 9 0 true ((cut 37 s).1.drop 2)
    else ipv6Loop 9 0 false (cut 37 s).1
  else false

/-- The text between the brackets of an IP literal, unescaped: what comes
before the first `%25` as a host, the rest as a zone. -/
def unescapeHostname (hostname : GoString) : Except ParseError GoString :=
  match indexOf [37, 50, 53] hostname with
  | some zone =>
    match unescape .encodeHost (hostname.take zone) with
    | .error e => .error e
    | .ok hostPart =>
      match unescape .encodeZone (hostname.drop zone) with
      | .error e => .error e
      | .ok zonePart => .ok (hostPart ++ zonePart)
  | none => unescape .encodeHost hostname

/-- `parseHost`. Brackets may only hold an IPv6 address; outside brackets a
colon may only stand before the port. -/
def parseHost (host : GoString) : Except ParseError GoString :=
  if startsWith host [91] then
    match lastIndexByte 93 host with
    | none => .error .missingBracket
    | some i =>
      if !validOptionalPort (host.drop (i + 1)) then .error (.invalidPort (host.drop (i + 1)))
      else
        match unescapeHostname ((host.take i).drop 1) with
        | .error e => .error e
        | .ok name =>
          if isIPv6Literal name then .ok ([91] ++ name ++ [93] ++ host.drop (i + 1))
          else .error .invalidIPLiteral
  else
    match indexByte 58 host with
    | some i =>
      if !validOptionalPort (host.drop i) then .error (.invalidPort (host.drop i))
      else unescape .encodeHost host
    | none => unescape .encodeHost host

/-- The user part of `parseAuthority`, on the text before the last `@`. -/
def parseUserinfo (userinfo : GoString) : Except ParseError Userinfo :=
  if !validUserinfo userinfo then .error .invalidUserinfo
  else if !containsByte userinfo 58 then
    match unescape .encodeUserPassword userinfo with
    | .error e => .error e
    | .ok name => .ok { username := name, password := [], passwordSet := false }
  else
    match unescape .encodeUserPassword (cut 58 userinfo).1 with
    | .error e => .error e
    | .ok name =>
      match unescape .encodeUserPassword (cut 58 userinfo).2 with
      | .error e => .error e
      | .ok pw => .ok { username := name, password := pw, passwordSet := true }

/-- `parseAuthority`. -/
def parseAuthority (authority : GoString) : Except ParseError (Option Userinfo × GoString) :=
  match lastIndexByte 64 authority with
  | none =>
    match parseHost authority with
    | .error e => .error e
    | .ok host => .ok (none, host)
  | some i =>
    match parseHost (authority.drop (i + 1)) with
    | .error e => .error e
    | .ok host =>
      match parseUserinfo (authority.take i) with
      | .error e => .error e
      | .ok user => .ok (some user, host)

/-- `URL.setPath`. -/
def URL.setPath (u : URL) (p : GoString) : Except ParseError URL :=
  match unescape .encodePath p with
  | .error e => .error e
  | .ok path =>
    if p = escape path .encodePath then .ok { u with Path := path, RawPath := [] }
    else .ok { u with Path := path, RawPath := p }

/-- `URL.setFragment`. -/
def URL.setFragment (u : URL) (f : GoString) : Except ParseError URL :=
  match unescape .encodeFragment f with
  | .error e => .error e
  | .ok frag =>
    if f = escape frag .encodeFragment then .ok { u with Fragment := frag, RawFragment := [] }
    else .ok { u with Fragment := frag, RawFragment := f }

/-- The last part of `parse(rawURL, viaRequest)`, with `viaRequest = false`:
what is left once the scheme and the query are split off is an opaque part,
or an authority and a path, or a path. -/
def parseRest (url : URL) (rest : GoString) : Except ParseError URL :=
  if !startsWith rest [47] && url.Scheme != [] then .ok { url with Opaque := rest }
  else if !startsWith rest [47] && containsByte (cut 47 rest).1 58 then
    .error .firstPathSegmentColon
  else if (url.Scheme != [] || !startsWith rest [47, 47, 47]) && startsWith rest [47, 47] then
    let authority := (cut 47 (rest.drop 2)).1
    let rest1 := (rest.drop 2).drop authority.length
    match parseAuthority authority with
    | .error e => .error e
    | .ok (user, host) => URL.setPath { url with User := user, Host := host } rest1
  else if url.Scheme != [] && startsWith rest [47] then
    URL.setPath { url with OmitHost := true } rest
  else URL.setPath url rest

/-- The middle part of `parse(rawURL, viaRequest)`: the scheme is lowered and
the query split off at the first `?` (a lone final `?` sets `ForceQuery`). -/
def parseAfterScheme (scheme0 rest0 : GoString) : Except ParseError URL :=
  let force := endsWith rest0 [63] && countByte rest0 63 == 1
  parseRest
    { Scheme := toLower scheme0, ForceQuery := force,
      RawQuery := if force then [] else (cut 63 rest0).2 }
    (if force then rest0.dropLast else (cut 63 rest0).1)

/-- The function `parse(rawURL, viaRequest)` of `net/url` with
`viaRequest = false`, on the text before the fragment. -/
def parseNoFragment (rawURL : GoString) : Except ParseError URL :=
  if stringContainsCTLByte rawURL then .error .invalidControlCharacter
  else if rawURL = [42] then .ok { Path := [42] }
  else
    match getScheme rawURL with
    | .error e => .error e
    | .ok (scheme0, rest0) => parseAfterScheme scheme0 rest0

/-- `url.Parse(rawURL)`. -/
def Parse (rawURL : GoString) : Except ParseError URL :=
  match parseNoFragment (cut 35 rawURL).1 with
  | .error e => .error e
  | .ok url =>
    if (cut 35 rawURL).2 = [] then .ok url
    else url.setFragment (cut 35 rawURL).2

/-- `URL.Query()`. -/
def URL.Query (u : URL) : Values := ParseQuery u.RawQuery

/-- `URL.EscapedPath()`. -/
def URL.EscapedPath (u : URL) : GoString :=
  if u.RawPath != [] && validEncoding u.RawPath .encodePath
      && unescape .encodePath u.RawPath == .ok u.Path then u.RawPath
  else if u.Path = [42] then [42]
  else escape u.Path .encodePath

/-- `URL.EscapedFragment()`. -/
def URL.EscapedFragment (u : URL) : GoString :=
  if u.RawFragment != [] && validEncoding u.RawFragment .encodeFragment
      && unescape .encodeFragment u.RawFragment == .ok u.Fragment then u.RawFragment
  else escape u.Fragment .encodeFragment

/-- `Userinfo.String()`. -/
def Userinfo.String (u : Userinfo) : GoString :=
  if u.passwordSet then
    escape u.username .encodeUserPassword ++ [58] ++ escape u.password .encodeUserPassword
  else escape u.username .encodeUserPassword

/-- What `URL.String()` writes for the user and the host. -/
def URL.authorityString (u : URL) : GoString :=
  if u.Scheme != [] || u.Host != [] || u.User.isSome then
    if u.OmitHost && u.Host == [] && u.User.isNone then []
    else
      (if u.Host != [] || u.Path != [] || u.User.isSome then [47, 47] else [])
        ++ (match u.User with
            | some ui => ui.String ++ [64]
            | none => [])
        ++ (if u.Host != [] then escape u.Host .encodeHost else [])
  else []

/-- What `URL.String()` writes for the scheme. -/
def URL.schemeString (u : URL) : GoString :=
  if u.Scheme != [] then u.Scheme ++ [58] else []

/-- What `URL.String()` writes for the path. When the host is omitted and the
escaped path starts with `//`, its first slash is written `%2F`, so that what
follows the scheme does not read as an authority. -/
def URL.pathString (u : URL) : GoString :=
  if u.OmitHost && u.Host == [] && u.User.isNone && startsWith u.EscapedPath [47, 47] then
    [37, 50, 70] ++ u.EscapedPath.drop 1
  else u.EscapedPath

/-- What `URL.String()` writes before the query: scheme, opaque part or
authority and path. -/
def URL.headString (u : URL) : GoString :=
  if u.Opaque != [] then u.schemeString ++ u.Opaque
  else
    let buf1 := u.schemeString ++ u.authorityString
    let path := u.EscapedPath
    let buf2 := if path != [] && path.head? != some 47 && u.Host != [] then buf1 ++ [47] else buf1
    let buf3 := if buf2 = [] && containsByte (cut 47 path).1 58 then buf2 ++ [46, 47] else buf2
    buf3 ++ u.pathString

/-- `URL.String()`. -/
def URL.String (u : URL) : GoString :=
  u.headString
    ++ (if u.ForceQuery || u.RawQuery != [] then [63] ++ u.RawQuery else [])
    ++ (if u.Fragment != [] then [35] ++ u.EscapedFragment else [])

/-! ## Part 2a: `main.go`, the sequential code -/

/-- The constant `colorRed`, `"\033[31m"`. -/
def colorRed : GoString := [27, 91, 51, 49, 109]

/-- The constant `colorReset`, `"\033[0m"`. -/
def colorReset : GoString := [27, 91, 48, 109]

/-- The function `colorizeText`: `fmt.Sprintf("%s%s%s", color, text, colorReset)`. -/
def colorizeText (text color : GoString) : GoString := color ++ text ++ colorReset

/-- The function `replaceParamsInURL`. The map `params` is ranged over in the
order of its association list. -/
def replaceParamsInURL (urlStr : GoString) (params : List (GoString × GoString)) : GoString :=
  match Parse urlStr with
  | .error _ => urlStr
  | .ok u =>
    let queryParams := params.foldl (fun q kv => Values.Set q kv.1 kv.2) u.Query
    URL.String { u with RawQuery := queryParams.Encode }

/-- The loop `for key := range queryParams` of `processRequests`, visiting the
keys `keys`: each turn records `modifiedParams[key] = reflectValue` and calls
`queryParams.Set(key, reflectValue)`. The state is the pair
`(modifiedParams, queryParams)`. -/
def substituteLoop (reflectValue : GoString) (keys : List GoString)
    (st : List (GoString × GoString) × Values) : List (GoString × GoString) × Values :=
  keys.foldl (fun st key => (mapSet st.1 key reflectValue, Values.Set st.2 key reflectValue)) st

/-- What the network answers to a GET: `http.Get` fails, or it succeeds and
`ioutil.ReadAll` fails, or the body is read. -/
inductive Fetch
  | transportError (err : GoString)
  | readError (err : GoString)
  | body (b : GoString)
  deriving DecidableEq, Repr

/-- `hasPort` of `net/http`: a colon stands after the last `]`. -/
def hasPort (host : GoString) : Bool :=
  match lastIndexByte 58 host, lastIndexByte 93 host with
  | some i, some j => decide (j < i)
  | some _, none => true
  | none, _ => false

/-- `removeEmptyPort` of `net/http`: a final colon with no port is dropped. -/
def removeEmptyPort (host : GoString) : GoString :=
  if hasPort host && endsWith host [58] then host.dropLast else host

/-- `http.Get(url)` followed by `ioutil.ReadAll`, over a network `raw`: the
request is built by parsing `url`, and it is sent only when the scheme is
`http` or `https` and the host is not empty; otherwise `http.Get` returns an
error (its text is abridged here). `raw` stands for everything that happens
once the request is sent. -/
def httpGet (raw : GoString → Fetch) (url : GoString) : Fetch :=
  match Parse url with
  | .error _ => .transportError (lit "parse")
  | .ok u =>
    if u.Scheme ≠ lit "http" ∧ u.Scheme ≠ lit "https" then
      .transportError (lit "unsupported protocol scheme")
    else if removeEmptyPort u.Host = [] then
      .transportError (lit "http: no Host in request URL")
    else raw url

/-- The effects of one probing goroutine, in program order. -/
inductive Event
  | logParseFailed (req : GoString) (err : ParseError)
  | get (url : GoString)
  | logSendFailed (url : GoString) (err : GoString)
  | logReadFailed (url : GoString) (err : GoString)
  | print (line : GoString)
  | done
  deriving DecidableEq, Repr

/-- The line `fmt.Printf("%s [reflected]%s\n", colorizeText(modifiedURL, colorRed), colorReset)`. -/
def reportLine (modifiedURL : GoString) : GoString :=
  colorizeText modifiedURL colorRed ++ lit " [reflected]" ++ colorReset ++ [10]

/-- The mutated URL of the goroutine: the parsed URL with its query rebuilt
from the substituted parameters. The loop ranges over the keys in the order
of the association list; `substituteLoop_snd_eq` shows that every other order
gives the same parameters. -/
def mutate (reflectValue : GoString) (u : URL) : URL :=
  { u with RawQuery :=
      (substituteLoop reflectValue (mapKeys u.Query) ([], u.Query)).2.Encode }

/-- The map `modifiedParams` of the goroutine after the loop. -/
def modifiedParamsOf (reflectValue : GoString) (u : URL) : List (GoString × GoString) :=
  (substituteLoop reflectValue (mapKeys u.Query) ([], u.Query)).1

/-- The goroutine `go func(req string)` launched by `processRequests` for one
request, as the list of its effects; `net` is the outcome of `http.Get`
followed by `ioutil.ReadAll` for a given URL (see `httpGet`). The deferred
`requestWg.Done()` runs when the function returns, whichever `return` is
taken. -/
def processRequests.worker (reflectValue : GoString) (net : GoString → Fetch)
    (req : GoString) : List Event :=
  match Parse req with
  | .error err => [.logParseFailed req err, .done]
  | .ok u =>
    let target := (mutate reflectValue u).String
    .get target ::
      match net target with
      | .transportError err => [.logSendFailed target err, .done]
      | .readError err => [.logReadFailed target err, .done]
      | .body body =>
        if Contains body reflectValue then
          [.print (reportLine (replaceParamsInURL target (modifiedParamsOf reflectValue u))),
            .done]
        else [.done]

/-- The lines a list of effects writes to standard output. -/
def stdoutOf (evs : List Event) : List GoString :=
  evs.filterMap fun e => match e with
    | .print line => some line
    | _ => none

/-- The entries a list of effects writes to the log. -/
def logOf (evs : List Event) : List Event :=
  evs.filter fun e => match e with
    | .logParseFailed _ _ => true
    | .logSendFailed _ _ => true
    | .logReadFailed _ _ => true
    | _ => false

/-- The URLs a list of effects requests. -/
def requestsOf (evs : List Event) : List GoString :=
  evs.filterMap fun e => match e with
    | .get url => some url
    | _ => none

/-! ## Part 2b: `main.go`, the goroutines as a transition system -/

/-- The flags and the world the program runs in. -/
structure Config where
  /-- The flag `-rate`, the capacity of `requestsCh`. -/
  rate : Int
  /-- The flag `-delay`, in milliseconds. -/
  delay : Int
  /-- The flag `-reflect`. -/
  reflectValue : GoString
  /-- The lines `scanner.Scan()` yields. -/
  lines : List GoString
  /-- Whether `scanner.Err()` is non-nil once the scan stops. -/
  scanErr : Bool
  /-- What the network answers. -/
  net : GoString → Fetch

/-- Where `main` stands, from the loop `for scanner.Scan()` on. -/
inductive MainPC
  | scan
  | send (urlString : GoString)
  | tick
  | close
  | errCheck
  | wait
  | exited
  deriving DecidableEq, Repr

/-- Where `processRequests` stands. -/
inductive DispPC
  | recv
  | add (request : GoString)
  | spawn (request : GoString)
  | waitRequests
  | signal
  | returned
  deriving DecidableEq, Repr

/-- What the feeder loop of `main` has done to its two channels. -/
inductive FeederOp
  | send (urlString : GoString)
  | tick
  | close
  deriving DecidableEq, Repr

/-- The state of the running program. The last four fields are history
variables: they record what happened and no step reads them. -/
structure State where
  /-- The lines the scanner has yet to yield. -/
  input : List GoString
  mainPC : MainPC
  /-- The buffer of `requestsCh`. -/
  queue : List GoString
  /-- Whether `requestsCh` is closed. -/
  closed : Bool
  /-- Whether a tick is waiting in `delayCh` (its buffer holds one). -/
  tickReady : Bool
  dispPC : DispPC
  /-- The counter of `requestWg`. -/
  requestWg : Int
  /-- The counter of `wg`. -/
  wg : Int
  /-- The effects each launched goroutine has yet to perform; empty once it
  has returned. -/
  workers : List (List Event)
  stdout : List GoString
  log : List Event
  /-- Whether a goroutine has panicked (the process is then over). -/
  panicked : Bool
  feederTrace : List FeederOp
  received : List GoString
  adds : Nat
  dones : Nat
  deriving DecidableEq, Repr

/-- The value an `int64` holds for the integer `x`: Go's arithmetic wraps. -/
def wrapInt64 (x : Int) : Int := (x + 2 ^ 63) % 2 ^ 64 - 2 ^ 63

/-- The argument of `time.Tick` in `main`, in nanoseconds:
`time.Duration(*delayPtr) * time.Millisecond`, computed in `int64`. -/
def tickDuration (cfg : Config) : Int := wrapInt64 (wrapInt64 cfg.delay * 1000000)

/-- Whether `make(chan string, *ratePtr)` panics (`makechan: size out of
range`): the capacity is negative, or the buffer of 16-byte strings does not
fit under the allocation limit of the runtime, `2^48` bytes less the 96 bytes
of the channel header on a 64-bit platform. -/
def makePanics (cfg : Config) : Bool :=
  decide (cfg.rate < 0 ∨ 2 ^ 48 - 96 < 16 * cfg.rate)

/-- The state when `main` reaches its loop: the channel is made, the ticker
started, `processRequests` launched; no `Add` has been called on `wg`. -/
def init (cfg : Config) : State :=
  { input := cfg.lines, mainPC := .scan, queue := [], closed := false, tickReady := false,
    dispPC := .recv, requestWg := 0, wg := 0, workers := [], stdout := [], log := [],
    panicked := makePanics cfg, feederTrace := [], received := [], adds := 0, dones := 0 }

/-- Who moves next. -/
inductive Action
  | main
  | dispatcher
  | worker (i : Nat)
  | tick
  deriving DecidableEq, Repr

/-- One step of `main`; `none` when `main` is blocked or has returned. -/
def main.step (cfg : Config) (s : State) : Option State :=
  match s.mainPC with
  | .scan =>
    match s.input with
    | urlString :: rest => some { s with input := rest, mainPC := .send urlString }
    | [] => some { s with mainPC := .close }
  | .send urlString =>
    if (s.queue.length : Int) < cfg.rate then
      some { s with queue := s.queue ++ [urlString], mainPC := .tick,
                    feederTrace := s.feederTrace ++ [.send urlString] }
    else if s.dispPC = .recv ∧ s.queue = [] then
      some { s with dispPC := .add urlString, mainPC := .tick,
                    feederTrace := s.feederTrace ++ [.send urlString],
                    received := s.received ++ [urlString] }
    else none
  | .tick =>
    if s.tickReady then
      some { s with tickReady := false, mainPC := .scan, feederTrace := s.feederTrace ++ [.tick] }
    else none
  | .close =>
    some { s with closed := true, mainPC := .errCheck, feederTrace := s.feederTrace ++ [.close] }
  | .errCheck => some { s with mainPC := if cfg.scanErr then .exited else .wait }
  | .wait => if s.wg = 0 then some { s with mainPC := .exited } else none
  | .exited => none

/-- One step of `processRequests`; `none` when it is blocked or has
returned. -/
def processRequests.step (cfg : Config) (s : State) : Option State :=
  match s.dispPC with
  | .recv =>
    match s.queue with
    | request :: rest =>
      some { s with queue := rest, dispPC := .add request, received := s.received ++ [request] }
    | [] => if s.closed then some { s with dispPC := .waitRequests } else none
  | .add request => some { s with requestWg := s.requestWg + 1, adds := s.adds + 1,
                                  dispPC := .spawn request }
  | .spawn request =>
    some { s with workers := s.workers ++ [processRequests.worker cfg.reflectValue cfg.net request],
                  dispPC := .recv }
  | .waitRequests => if s.requestWg = 0 then some { s with dispPC := .signal } else none
  | .signal =>
    if s.wg - 1 < 0 then some { s with wg := s.wg - 1, panicked := true }
    else some { s with wg := s.wg - 1, dispPC := .returned }
  | .returned => none

/-- The effect of one event of a goroutine on the state. -/
def applyEvent (s : State) (e : Event) : State :=
  match e with
  | .print line => { s with stdout := s.stdout ++ [line] }
  | .get _ => s
  | .done =>
    if s.requestWg - 1 < 0 then { s with requestWg := s.requestWg - 1, panicked := true }
    else { s with requestWg := s.requestWg - 1, dones := s.dones + 1 }
  | e => { s with log := s.log ++ [e] }

/-- One step of the `i`-th launched goroutine; `none` when it has returned or
was never launched. -/
def processRequests.workerStep (s : State) (i : Nat) : Option State :=
  match s.workers.get? i with
  | some (e :: rest) => some (applyEvent { s with workers := s.workers.set i rest } e)
  | _ => none

/-- One step of the program. Nothing moves once `main` has returned (the
process exits) or a goroutine has panicked. The ticker fires only for a
positive duration: `time.Tick` returns a nil channel otherwise, and the
receive from it in `main` then blocks for ever. -/
def step (cfg : Config) (s : State) (a : Action) : Option State :=
  if s.mainPC = .exited ∨ s.panicked then none
  else
    match a with
    | .main => main.step cfg s
    | .dispatcher => processRequests.step cfg s
    | .worker i => processRequests.workerStep s i
    | .tick => if 0 < tickDuration cfg then some { s with tickReady := true } else none

/-- The state after a schedule, when every step of it is enabled. -/
def run (cfg : Config) (sched : List Action) : Option State :=
  sched.foldlM (step cfg) (init cfg)

/-- The number of launched goroutines that have not yet called
`requestWg.Done()`. -/
def inFlight (s : State) : Nat := (s.workers.filter fun w => w != []).length

/-- What the feeder loop does to its channels on the lines `lines`, in
program order. -/
def feederProgram (lines : List GoString) : List FeederOp :=
  (lines.flatMap fun l => [FeederOp.send l, FeederOp.tick]) ++ [FeederOp.close]

/-- The state after the schedule `sched`, started in `s`. -/
def runFrom (cfg : Config) (s : State) (sched : List Action) : Option State :=
  sched.foldlM (step cfg) s

/-! ## Part 2c: predicates used by the statements -/

/-- The decoding of the second pass of `unescape` outside a query component:
each `%XX` becomes one byte, everything else stays. -/
def decodePlain : GoString → GoString
  | [] => []
  | [c] => [c]
  | [c, d] => c :: decodePlain [d]
  | c :: h1 :: h2 :: s =>
    if c = 37 then hexValue h1 h2 :: decodePlain s else c :: decodePlain (h1 :: h2 :: s)

/-- The bytes `#` and `?` do not occur in `s`. -/
def Clean (s : GoString) : Prop := ∀ b ∈ s, b ≠ 35 ∧ b ≠ 63

/-- The number of calls of `requestWg.Done()` the launched goroutines have yet
to make. -/
def pendingDones (s : State) : Nat := (s.workers.map (fun w => w.count Event.done)).sum

/-- The lines a trace of the feeder loop has written to the queue, in order. -/
def sendsOf (t : List FeederOp) : List GoString :=
  t.filterMap fun op => match op with
    | .send l => some l
    | _ => none

/-- Whether `processRequests` is about to call `requestWg.Add(1)`. -/
def DispPC.isAdd : DispPC → Bool
  | .add _ => true
  | _ => false

/-- Whether `processRequests` is about to launch a goroutine. -/
def DispPC.isSpawn : DispPC → Bool
  | .spawn _ => true
  | _ => false

/-- What holds of the two counters in every state the program reaches. -/
structure WgInv (cfg : Config) (s : State) : Prop where
  adds_eq : s.adds = s.workers.length + (if s.dispPC.isSpawn then 1 else 0)
  recv_eq : s.received.length = s.adds + (if s.dispPC.isAdd then 1 else 0)
  wg_eq : s.requestWg = (pendingDones s : Int) + (if s.dispPC.isSpawn then 1 else 0)
  dones_eq : s.dones + pendingDones s = s.workers.length
  past : s.dispPC = .signal ∨ s.dispPC = .returned → s.requestWg = 0
  panic : s.panicked = true → s.wg < 0 ∨ makePanics cfg = true

/-- The part of the program of the feeder loop done after the lines `ls`. -/
def feederDone (ls : List GoString) : List FeederOp :=
  ls.flatMap fun l => [FeederOp.send l, FeederOp.tick]

/-- What holds of the feeder loop in every state the program reaches: `ls`
are the lines written and waited for so far. -/
def FeederInv (cfg : Config) (s : State) : Prop :=
  sendsOf s.feederTrace = s.received ++ s.queue ∧
  match s.mainPC with
  | .scan => s.closed = false ∧ ∃ ls, ls ++ s.input = cfg.lines ∧ s.feederTrace = feederDone ls
  | .send l =>
    s.closed = false ∧ ∃ ls, ls ++ l :: s.input = cfg.lines ∧ s.feederTrace = feederDone ls
  | .tick =>
    s.closed = false ∧ ∃ ls l, ls ++ l :: s.input = cfg.lines
      ∧ s.feederTrace = feederDone ls ++ [.send l]
  | .close => s.closed = false ∧ s.feederTrace = feederDone cfg.lines
  | _ => s.closed = true ∧ s.feederTrace = feederProgram cfg.lines

/-- The state at the top of the feeder loop with the queue drained and
`processRequests` waiting to receive. -/
def LoopTop (s : State) : Prop :=
  s.mainPC = .scan ∧ s.queue = [] ∧ s.dispPC = .recv ∧ s.closed = false ∧ s.panicked = false

/-- What holds of the feeder loop in every state the program reaches when the
ticker never fires: no tick is ever waiting, the queue is not closed, and
`main` stands before its first write or waits for the tick after it. -/
def NoTickInv (cfg : Config) (s : State) : Prop :=
  s.tickReady = false ∧ s.closed = false ∧
    ((s.feederTrace = [] ∧ s.mainPC = .scan ∧ s.input = cfg.lines)
      ∨ (s.feederTrace = [] ∧ ∃ l, s.mainPC = .send l)
      ∨ (∃ l, s.feederTrace = [.send l] ∧ s.mainPC = .tick))

/-! ## Part 2d: the inputs at which the statements are evaluated -/

/-- The URL that `url.Parse` returns for `http://example.com/a?x=1&y=2`. -/
def exampleURL : URL :=
  { Scheme := lit "http", Host := lit "example.com", Path := lit "/a", RawQuery := lit "x=1&y=2" }

/-- The URL that `url.Parse` returns for `http://h/?x=1`. -/
def shortURL : URL :=
  { Scheme := lit "http", Host := lit "h", Path := lit "/", RawQuery := lit "x=1" }

/-- The URL that `url.Parse` returns for `http://h/?a=1&a=2`. -/
def repeatedKeyURL : URL :=
  { Scheme := lit "http", Host := lit "h", Path := lit "/", RawQuery := lit "a=1&a=2" }

/-- A network that answers every GET with the body `aMb`. -/
def echoNet : GoString → Fetch := fun _ => .body (lit "aMb")

/-- The default flags (`-rate 1 -delay 1000 -reflect swagnito`) on a file that
holds the one line `http://h/?x=1`. -/
def oneLineConfig : Config :=
  { rate := 1, delay := 1000, reflectValue := lit "swagnito", lines := [lit "http://h/?x=1"],
    scanErr := false, net := echoNet }

/-- The default flags on an empty file. -/
def emptyFileConfig : Config :=
  { rate := 1, delay := 1000, reflectValue := lit "swagnito", lines := [],
    scanErr := false, net := echoNet }

/-- The state of `oneLineConfig` once `main` has written the line to the
queue. -/
def oneLineSent : State :=
  { init oneLineConfig with
    input := [], mainPC := .tick, queue := [lit "http://h/?x=1"],
    feederTrace := [.send (lit "http://h/?x=1")] }

/-- The state of `oneLineConfig` once `processRequests` has launched the
goroutine of the line. -/
def oneLineLaunched : State :=
  { init oneLineConfig with
    input := [], mainPC := .tick, requestWg := 1, adds := 1,
    workers := [processRequests.worker (lit "swagnito") echoNet (lit "http://h/?x=1")],
    feederTrace := [.send (lit "http://h/?x=1")], received := [lit "http://h/?x=1"] }

/-- The flags `-rate 1 -delay 0` on a file of two lines. -/
def twoLineNoDelay : Config :=
  { rate := 1, delay := 0, reflectValue := lit "swagnito",
    lines := [lit "http://h/?x=1", lit "http://h/?y=2"], scanErr := false, net := echoNet }

/-! ## Part 3a: Go maps and the substitution loop -/

theorem mapKeys_mapSet {ν : Type} (m : List (GoString × ν)) (k : GoString) (v : ν) :
    mapKeys (mapSet m k v) = if k ∈ mapKeys m then mapKeys m else mapKeys m ++ [k] := by
  induction m with
  | nil => simp [mapSet, mapKeys]
  | cons hd tl ih =>
    obtain ⟨k', v'⟩ := hd
    unfold mapSet
    by_cases h : k' = k
    · subst h; simp [mapKeys]
    · have h' : ¬ k = k' := fun e => h e.symm
      simp only [h, if_false]
      simp only [mapKeys, List.map_cons, List.mem_cons, h', false_or] at ih ⊢
      rw [ih]
      split <;> simp

theorem nodup_mapKeys_mapSet {ν : Type} (m : List (GoString × ν)) (k : GoString) (v : ν)
    (h : (mapKeys m).Nodup) : (mapKeys (mapSet m k v)).Nodup := by
  rw [mapKeys_mapSet]
  split
  · exact h
  · rename_i hk
    exact List.Nodup.append h (List.nodup_singleton k) (by simpa using hk)

theorem mapSet_eq_map {ν : Type} (m : List (GoString × ν)) (k : GoString) (v : ν)
    (hn : (mapKeys m).Nodup) (hk : k ∈ mapKeys m) :
    mapSet m k v = m.map (fun kv => if kv.1 = k then (k, v) else kv) := by
  induction m with
  | nil => simp [mapKeys] at hk
  | cons hd tl ih =>
    obtain ⟨k', v'⟩ := hd
    unfold mapSet
    simp only [mapKeys, List.map_cons, List.nodup_cons, List.mem_cons] at hn hk
    by_cases h : k' = k
    · subst h
      simp only [if_true, List.map_cons]
      congr 1
      symm
      refine (List.map_congr_left ?_).trans (List.map_id _)
      intro kv hkv
      have : kv.1 ≠ k' := fun e => hn.1 (e ▸ List.mem_map_of_mem Prod.fst hkv)
      simp [this]
    · have hk' : k ∈ mapKeys tl := by
        rcases hk with hk | hk
        · exact absurd hk.symm h
        · exact hk
      simp only [h, if_false, List.map_cons]
      rw [ih hn.2 hk']

theorem mapSet_of_not_mem {ν : Type} (m : List (GoString × ν)) (k : GoString) (v : ν)
    (hk : k ∉ mapKeys m) : mapSet m k v = m ++ [(k, v)] := by
  induction m with
  | nil => simp [mapSet]
  | cons hd tl ih =>
    obtain ⟨k', v'⟩ := hd
    simp only [mapKeys, List.map_cons, List.mem_cons, not_or] at hk
    unfold mapSet
    have h : ¬ k' = k := fun e => hk.1 e.symm
    simp only [h, if_false, List.cons_append]
    rw [ih hk.2]

theorem substituteLoop_fst (rv : GoString) (ks : List GoString)
    (st : List (GoString × GoString) × Values) :
    (substituteLoop rv ks st).1 = ks.foldl (fun m k => mapSet m k rv) st.1 := by
  induction ks generalizing st with
  | nil => rfl
  | cons k ks ih => simp only [substituteLoop, List.foldl_cons] at ih ⊢; rw [ih]

theorem substituteLoop_snd (rv : GoString) (ks : List GoString)
    (st : List (GoString × GoString) × Values) :
    (substituteLoop rv ks st).2 = ks.foldl (fun q k => Values.Set q k rv) st.2 := by
  induction ks generalizing st with
  | nil => rfl
  | cons k ks ih => simp only [substituteLoop, List.foldl_cons] at ih ⊢; rw [ih]

/-- Setting every key of `ks` to the one value `rv`, for keys the map holds. -/
theorem foldl_Set_eq_map (rv : GoString) (ks : List GoString) (q : Values)
    (hn : (mapKeys q).Nodup) (hks : ∀ k ∈ ks, k ∈ mapKeys q) :
    ks.foldl (fun q k => Values.Set q k rv) q
      = q.map (fun kv => if kv.1 ∈ ks then (kv.1, [rv]) else kv) := by
  induction ks generalizing q with
  | nil => simp
  | cons k ks ih =>
    have hk : k ∈ mapKeys q := hks k (List.mem_cons_self _ _)
    have hkeys : mapKeys (Values.Set q k rv) = mapKeys q := by
      unfold Values.Set; rw [mapKeys_mapSet]; simp [hk]
    simp only [List.foldl_cons]
    rw [ih (Values.Set q k rv) (by rw [hkeys]; exact hn)
      (by intro k' hk'; rw [hkeys]; exact hks k' (List.mem_cons_of_mem _ hk'))]
    unfold Values.Set
    rw [mapSet_eq_map q k [rv] hn hk, List.map_map]
    apply List.map_congr_left
    intro kv _
    by_cases h : kv.1 = k
    · simp [h]
    · simp [h]

theorem foldl_mapSet_fresh {ν : Type} (v : ν) (ks : List GoString) (m : List (GoString × ν))
    (hn : ks.Nodup) (hd : ∀ k ∈ ks, k ∉ mapKeys m) :
    ks.foldl (fun m k => mapSet m k v) m = m ++ ks.map (fun k => (k, v)) := by
  induction ks generalizing m with
  | nil => simp
  | cons k ks ih =>
    simp only [List.nodup_cons] at hn
    simp only [List.foldl_cons, List.map_cons]
    rw [mapSet_of_not_mem m k v (hd k (List.mem_cons_self _ _))]
    rw [ih _ hn.2]
    · simp
    · intro k' hk'
      simp only [mapKeys, List.map_append, List.map_cons, List.map_nil, List.mem_append,
        List.mem_singleton, not_or]
      refine ⟨hd k' (List.mem_cons_of_mem _ hk'), ?_⟩
      rintro rfl
      exact hn.1 hk'

theorem nodup_mapKeys_parseQuerySegment (m : Values) (seg : GoString)
    (h : (mapKeys m).Nodup) : (mapKeys (parseQuerySegment m seg)).Nodup := by
  unfold parseQuerySegment
  split
  · exact h
  · split
    · exact h
    · split
      · exact h
      · split
        · exact h
        · exact nodup_mapKeys_mapSet _ _ _ h

theorem nodup_mapKeys_foldl_parseQuerySegment (segs : List GoString) (m : Values)
    (h : (mapKeys m).Nodup) : (mapKeys (segs.foldl parseQuerySegment m)).Nodup := by
  induction segs generalizing m with
  | nil => exact h
  | cons s segs ih => exact ih _ (nodup_mapKeys_parseQuerySegment m s h)

theorem nodup_mapKeys_ParseQuery (query : GoString) : (mapKeys (ParseQuery query)).Nodup := by
  unfold ParseQuery
  split
  · simp [mapKeys]
  · exact nodup_mapKeys_foldl_parseQuerySegment _ _ (by simp [mapKeys])

/-! ## Part 3b: escaping and unescaping -/

theorem unescape_cons_plain (m : Encoding) (c : Byte) (s : GoString)
    (h37 : c ≠ 37) (h43 : c ≠ 43)
    (hhost : ¬((m = .encodeHost ∨ m = .encodeZone) ∧ c.val < 128 ∧ shouldEscape c .encodeHost)) :
    unescape m (c :: s) = (unescape m s).map (fun t => c :: t) := by
  match s with
  | [] => simp [unescape, h37, h43, hhost, Except.map]
  | [d] => simp [unescape, h37, h43, hhost]
  | d :: e :: s => simp [unescape, h37, h43, hhost]

theorem unescape_cons_plus (m : Encoding) (s : GoString) :
    unescape m (43 :: s)
      = (unescape m s).map (fun t => (if m = .encodeQueryComponent then 32 else 43) :: t) := by
  match s with
  | [] => simp [unescape, Except.map]
  | [d] => simp [unescape]
  | d :: e :: s => simp [unescape]

theorem unescape_query_pct (h1 h2 : Byte) (s : GoString) (hh : (ishex h1 && ishex h2) = true) :
    unescape .encodeQueryComponent (37 :: h1 :: h2 :: s)
      = (unescape .encodeQueryComponent s).map (fun t => hexValue h1 h2 :: t) := by
  simp [unescape, hh]

theorem upperhex_roundtrip : ∀ c : Byte,
    (ishex (upperhex (c.val / 16)) && ishex (upperhex (c.val % 16))) = true
      ∧ hexValue (upperhex (c.val / 16)) (upperhex (c.val % 16)) = c := by
  decide

theorem shouldEscape_query_special : ∀ c : Byte,
    shouldEscape c .encodeQueryComponent = false → c ≠ 37 ∧ c ≠ 43 := by
  decide

/-- Unescaping undoes escaping, for a query component. -/
theorem unescape_escape_query_append (s t : GoString) :
    unescape .encodeQueryComponent (escape s .encodeQueryComponent ++ t)
      = (unescape .encodeQueryComponent t).map (fun r => s ++ r) := by
  induction s with
  | nil =>
    simp only [escape, List.flatMap_nil, List.nil_append]
    cases unescape .encodeQueryComponent t <;> rfl
  | cons c s ih =>
    have hcons : escape (c :: s) .encodeQueryComponent ++ t
        = escapeByte .encodeQueryComponent c ++ (escape s .encodeQueryComponent ++ t) := by
      simp [escape, List.flatMap_cons]
    rw [hcons]
    unfold escapeByte
    by_cases h32 : c = 32
    · subst h32
      simp only [true_and, if_true, List.singleton_append]
      rw [unescape_cons_plus, ih]
      cases unescape .encodeQueryComponent t <;> rfl
    · simp only [h32, false_and, if_false]
      by_cases hesc : shouldEscape c .encodeQueryComponent = true
      · simp only [hesc, if_true, List.cons_append, List.nil_append]
        rw [unescape_query_pct _ _ _ (upperhex_roundtrip c).1, (upperhex_roundtrip c).2, ih]
        cases unescape .encodeQueryComponent t <;> rfl
      · have hesc' : shouldEscape c .encodeQueryComponent = false := by
          simpa using hesc
        simp only [hesc', Bool.false_eq_true, if_false, List.singleton_append]
        rw [unescape_cons_plain _ _ _ (shouldEscape_query_special c hesc').1
          (shouldEscape_query_special c hesc').2 (by simp), ih]
        cases unescape .encodeQueryComponent t <;> rfl

theorem QueryUnescape_QueryEscape (s : GoString) : QueryUnescape (QueryEscape s) = .ok s := by
  have h := unescape_escape_query_append s []
  simp only [List.append_nil] at h
  unfold QueryUnescape QueryEscape
  rw [h]
  simp [unescape, Except.map]

theorem QueryEscape_injective {a b : GoString} (h : QueryEscape a = QueryEscape b) : a = b := by
  have ha := QueryUnescape_QueryEscape a
  rw [h, QueryUnescape_QueryEscape b] at ha
  exact (Except.ok.inj ha).symm

/-- The bytes `& = ; # ?`. -/
theorem escapeByte_query_bytes : ∀ c : Byte,
    (escapeByte .encodeQueryComponent c).all
      (fun b => b != 38 && b != 61 && b != 59 && b != 35 && b != 63) = true := by
  decide

theorem QueryEscape_bytes (s : GoString) (b : Byte) (hb : b ∈ QueryEscape s) :
    b ≠ 38 ∧ b ≠ 61 ∧ b ≠ 59 ∧ b ≠ 35 ∧ b ≠ 63 := by
  unfold QueryEscape escape at hb
  rw [List.mem_flatMap] at hb
  obtain ⟨c, _, hc⟩ := hb
  have h := List.all_eq_true.mp (escapeByte_query_bytes c) b hc
  simp only [Bool.and_eq_true, bne_iff_ne, ne_eq] at h
  exact ⟨h.1.1.1.1, h.1.1.1.2, h.1.1.2, h.1.2, h.2⟩

/-! ## Part 3c: `ParseQuery` after `Encode` -/

theorem cut_append_sep (sep : Byte) (a b : GoString) (h : sep ∉ a) :
    cut sep (a ++ sep :: b) = (a, b) := by
  induction a with
  | nil => simp [cut, List.takeWhile, List.dropWhile]
  | cons c a ih =>
    simp only [List.mem_cons, not_or] at h
    have hc : (c != sep) = true := by simpa using fun e => h.1 e.symm
    have ih' := ih h.2
    simp only [cut, List.cons_append, Prod.mk.injEq] at ih' ⊢
    rw [List.takeWhile_cons, List.dropWhile_cons]
    simp only [hc, if_true]
    exact ⟨by rw [ih'.1], ih'.2⟩

theorem Values_get_of_not_mem (q : Values) (k : GoString) (h : k ∉ mapKeys q) :
    q.get k = [] := by
  induction q with
  | nil => rfl
  | cons hd tl ih =>
    obtain ⟨k', v'⟩ := hd
    simp only [mapKeys, List.map_cons, List.mem_cons, not_or] at h
    have hne : (k == k') = false := by simpa using h.1
    have ih' := ih h.2
    simp only [Values.get, List.lookup, hne] at ih' ⊢
    exact ih'

theorem Values_get_of_mem (q : Values) (k rv : GoString) (hall : ∀ kv ∈ q, kv.2 = [rv])
    (h : k ∈ mapKeys q) : q.get k = [rv] := by
  induction q with
  | nil => simp [mapKeys] at h
  | cons hd tl ih =>
    obtain ⟨k', v'⟩ := hd
    simp only [mapKeys, List.map_cons, List.mem_cons] at h
    by_cases hk : k = k'
    · subst hk
      have := hall (k, v') (List.mem_cons_self _ _)
      simp only at this
      simp [Values.get, List.lookup, this]
    · have hne : (k == k') = false := by simpa using hk
      have h' : k ∈ mapKeys tl := by
        rcases h with h | h
        · exact absurd h hk
        · exact h
      have ih' := ih (fun kv hkv => hall kv (List.mem_cons_of_mem _ hkv)) h'
      simp only [Values.get, List.lookup, hne] at ih' ⊢
      exact ih'

/-- The query string `Encode` builds when every key holds the one value `rv`. -/
theorem Encode_of_all (q : Values) (rv : GoString) (hall : ∀ kv ∈ q, kv.2 = [rv]) :
    q.Encode = [38].intercalate ((sortKeys (mapKeys q)).map (fun k => encodePair k rv)) := by
  unfold Values.Encode
  congr 1
  have hmem : ∀ k ∈ sortKeys (mapKeys q), k ∈ mapKeys q := fun k hk =>
    (List.perm_insertionSort _ _).mem_iff.mp hk
  generalize sortKeys (mapKeys q) = ks at hmem
  induction ks with
  | nil => rfl
  | cons k ks ih =>
    simp only [List.flatMap_cons, List.map_cons]
    rw [Values_get_of_mem q k rv hall (hmem k (List.mem_cons_self _ _)),
      ih (fun k' hk' => hmem k' (List.mem_cons_of_mem _ hk'))]
    rfl

theorem encodePair_no_amp (k rv : GoString) : (38 : Byte) ∉ encodePair k rv := by
  unfold encodePair
  simp only [List.mem_append, List.mem_singleton, not_or]
  exact ⟨⟨fun h => (QueryEscape_bytes k 38 h).1 rfl, by decide⟩,
    fun h => (QueryEscape_bytes rv 38 h).1 rfl⟩

theorem parseQuerySegment_encodePair (m : Values) (k rv : GoString) (hk : k ∉ mapKeys m) :
    parseQuerySegment m (encodePair k rv) = m ++ [(k, [rv])] := by
  have h59 : containsByte (encodePair k rv) 59 = false := by
    unfold containsByte encodePair
    rw [Bool.eq_false_iff]
    intro h
    have h := List.mem_of_elem_eq_true h
    simp only [List.mem_append, List.mem_singleton] at h
    rcases h with (h | h) | h
    · exact (QueryEscape_bytes k 59 h).2.2.1 rfl
    · exact absurd h (by decide)
    · exact (QueryEscape_bytes rv 59 h).2.2.1 rfl
  have hne : encodePair k rv ≠ [] := by
    unfold encodePair; simp
  have hcut : cut 61 (encodePair k rv) = (QueryEscape k, QueryEscape rv) := by
    unfold encodePair
    rw [List.append_assoc, List.singleton_append]
    exact cut_append_sep 61 _ _ (fun h => (QueryEscape_bytes k 61 h).2.1 rfl)
  unfold parseQuerySegment
  simp only [h59, Bool.false_eq_true, if_false, hne, hcut, QueryUnescape_QueryEscape]
  unfold Values.append
  rw [Values_get_of_not_mem m k hk, List.nil_append, mapSet_of_not_mem m k _ hk]

theorem foldl_parseQuerySegment_encodePair (rv : GoString) (ks : List GoString) (m : Values)
    (hn : ks.Nodup) (hd : ∀ k ∈ ks, k ∉ mapKeys m) :
    (ks.map (fun k => encodePair k rv)).foldl parseQuerySegment m
      = m ++ ks.map (fun k => (k, [rv])) := by
  induction ks generalizing m with
  | nil => simp
  | cons k ks ih =>
    simp only [List.nodup_cons] at hn
    simp only [List.map_cons, List.foldl_cons]
    rw [parseQuerySegment_encodePair m k rv (hd k (List.mem_cons_self _ _)), ih _ hn.2]
    · simp
    · intro k' hk'
      simp only [mapKeys, List.map_append, List.map_cons, List.map_nil, List.mem_append,
        List.mem_singleton, not_or]
      refine ⟨hd k' (List.mem_cons_of_mem _ hk'), ?_⟩
      rintro rfl
      exact hn.1 hk'

theorem splitOn_length (a : Byte) (l : GoString) : (l.splitOn a).length = l.count a + 1 := by
  unfold List.splitOn
  induction l with
  | nil => simp
  | cons x l ih =>
    rw [List.splitOnP_cons]
    by_cases h : x = a
    · subst h
      simp [ih]
    · have h1 : (x == a) = false := by simpa using h
      simp only [h1, Bool.false_eq_true, if_false, List.length_modifyHead, ih]
      rw [List.count_cons]
      simp [h1]

theorem mapKeys_length_mapSet {ν : Type} (m : List (GoString × ν)) (k : GoString) (v : ν) :
    (mapKeys (mapSet m k v)).length ≤ (mapKeys m).length + 1 := by
  rw [mapKeys_mapSet]
  split <;> simp

theorem mapKeys_length_parseQuerySegment (m : Values) (seg : GoString) :
    (mapKeys (parseQuerySegment m seg)).length ≤ (mapKeys m).length + 1 := by
  unfold parseQuerySegment
  split
  · omega
  · split
    · omega
    · split
      · omega
      · split
        · omega
        · exact mapKeys_length_mapSet _ _ _

theorem mapKeys_length_foldl (segs : List GoString) (m : Values) :
    (mapKeys (segs.foldl parseQuerySegment m)).length ≤ (mapKeys m).length + segs.length := by
  induction segs generalizing m with
  | nil => simp
  | cons sg segs ih =>
    have h1 := ih (parseQuerySegment m sg)
    have h2 := mapKeys_length_parseQuerySegment m sg
    simp only [List.foldl_cons, List.length_cons]
    omega

/-- A parsed query never holds more keys than the limit. -/
theorem mapKeys_length_ParseQuery (query : GoString) :
    (mapKeys (ParseQuery query)).length ≤ maxQueryParams := by
  unfold ParseQuery
  split
  · simp [mapKeys]
  · rename_i h
    have h1 := mapKeys_length_foldl (query.splitOn 38) []
    rw [splitOn_length] at h1
    simp only [mapKeys, List.map_nil, List.length_nil, Nat.zero_add] at h1
    unfold countByte at h
    simp only [mapKeys]
    omega

/-- Parsing the query string built from the keys `ks`, each with the one value
`rv`, gives back those keys in that order, each with the one value `rv`. -/
theorem ParseQuery_intercalate (rv : GoString) (ks : List GoString) (hn : ks.Nodup)
    (hlen : ks.length ≤ maxQueryParams) :
    ParseQuery ([38].intercalate (ks.map (fun k => encodePair k rv)))
      = ks.map (fun k => (k, [rv])) := by
  unfold ParseQuery
  by_cases hks : ks = []
  · subst hks
    simp [List.intercalate, List.splitOn_nil, parseQuerySegment, containsByte, countByte,
      maxQueryParams]
  · have hsplit : ([38].intercalate (ks.map (fun k => encodePair k rv))).splitOn 38
        = ks.map (fun k => encodePair k rv) :=
      List.splitOn_intercalate _ 38
        (by
          intro l hl
          rw [List.mem_map] at hl
          obtain ⟨k, _, rfl⟩ := hl
          exact encodePair_no_amp k rv)
        (by simpa using hks)
    have hcount : countByte ([38].intercalate (ks.map (fun k => encodePair k rv))) 38 + 1
        = ks.length := by
      unfold countByte
      rw [← splitOn_length, hsplit, List.length_map]
    rw [hcount, if_neg (by omega), hsplit,
      foldl_parseQuerySegment_encodePair rv ks [] hn (by simp [mapKeys])]
    simp

theorem sortKeys_perm (ks : List GoString) : (sortKeys ks).Perm ks :=
  List.perm_insertionSort _ _

theorem sortKeys_sortKeys (ks : List GoString) : sortKeys (sortKeys ks) = sortKeys ks :=
  List.Sorted.insertionSort_eq (List.sorted_insertionSort _ _)

theorem sortKeys_nodup (ks : List GoString) (h : ks.Nodup) : (sortKeys ks).Nodup :=
  (sortKeys_perm ks).nodup_iff.mpr h

theorem filter_eq_singleton (l : List GoString) (k : GoString) (hn : l.Nodup) (hk : k ∈ l) :
    l.filter (fun x => decide (x = k)) = [k] := by
  induction l with
  | nil => simp at hk
  | cons a l ih =>
    simp only [List.nodup_cons] at hn
    by_cases ha : a = k
    · subst ha
      rw [List.filter_cons_of_pos (by simp)]
      congr 1
      rw [List.filter_eq_nil_iff]
      intro x hx
      have : x ≠ a := fun e => hn.1 (e ▸ hx)
      simpa using this
    · rw [List.filter_cons_of_neg (by simpa using ha)]
      rcases List.mem_cons.mp hk with h | h
      · exact absurd h.symm ha
      · exact ih hn.2 h

theorem sortKeys_length (ks : List GoString) : (sortKeys ks).length = ks.length :=
  (sortKeys_perm ks).length_eq

/-! ## Part 3d: the substitution of the goroutine and its rebuilt query -/

/-- The parameters after the loop, when the loop visits the keys `ks`, a
rearrangement of the keys of the map: every value is the marker. -/
theorem substituteLoop_snd_eq (rv : GoString) (q : Values) (ks : List GoString)
    (hn : (mapKeys q).Nodup) (hks : ks.Perm (mapKeys q)) :
    (substituteLoop rv ks ([], q)).2 = q.map (fun kv => (kv.1, [rv])) := by
  rw [substituteLoop_snd, foldl_Set_eq_map rv ks q hn (fun k hk => hks.mem_iff.mp hk)]
  apply List.map_congr_left
  intro kv hkv
  have : kv.1 ∈ ks := hks.mem_iff.mpr (List.mem_map_of_mem Prod.fst hkv)
  simp [this]

/-- The map `modifiedParams` after the loop. -/
theorem substituteLoop_fst_eq (rv : GoString) (q : Values) (ks : List GoString)
    (hn : (mapKeys q).Nodup) (hks : ks.Perm (mapKeys q)) :
    (substituteLoop rv ks ([], q)).1 = ks.map (fun k => (k, rv)) := by
  rw [substituteLoop_fst, foldl_mapSet_fresh rv ks [] (hks.nodup_iff.mpr hn) (by simp [mapKeys])]
  simp

theorem mapKeys_map_fst {ν μ : Type} (q : List (GoString × ν)) (f : GoString → μ) :
    mapKeys (q.map (fun kv => (kv.1, f kv.1))) = mapKeys q := by
  simp [mapKeys, List.map_map, Function.comp_def]

theorem mapKeys_map_const (q : Values) (rv : GoString) :
    mapKeys (q.map (fun kv => (kv.1, [rv]))) = mapKeys q := by
  simp [mapKeys, List.map_map, Function.comp_def]

theorem Query_keys_le (u : URL) : (sortKeys (mapKeys u.Query)).length ≤ maxQueryParams := by
  rw [sortKeys_length]
  exact mapKeys_length_ParseQuery u.RawQuery

/-- The rebuilt query of the mutated URL. -/
theorem mutate_RawQuery (rv : GoString) (u : URL) :
    (mutate rv u).RawQuery
      = [38].intercalate ((sortKeys (mapKeys u.Query)).map (fun k => encodePair k rv)) := by
  have hn : (mapKeys u.Query).Nodup := nodup_mapKeys_ParseQuery _
  unfold mutate
  simp only
  rw [substituteLoop_snd_eq rv u.Query _ hn (List.Perm.refl _),
    Encode_of_all _ rv (by
      intro kv hkv
      rw [List.mem_map] at hkv
      obtain ⟨kv', _, rfl⟩ := hkv
      rfl),
    mapKeys_map_const]

theorem modifiedParamsOf_eq (rv : GoString) (u : URL) :
    modifiedParamsOf rv u = (mapKeys u.Query).map (fun k => (k, rv)) := by
  unfold modifiedParamsOf
  exact substituteLoop_fst_eq rv u.Query _ (nodup_mapKeys_ParseQuery _) (List.Perm.refl _)

theorem foldl_Set_pairs (rv : GoString) (ks : List GoString) (q : Values) :
    (ks.map (fun k => (k, rv))).foldl (fun q kv => Values.Set q kv.1 kv.2) q
      = ks.foldl (fun q k => Values.Set q k rv) q := by
  induction ks generalizing q with
  | nil => rfl
  | cons k ks ih => simp only [List.map_cons, List.foldl_cons]; rw [ih]

/-- Applied to a URL whose query is already the rebuilt one, the substitution
of `replaceParamsInURL` rebuilds the same query. -/
theorem replace_query_fixed (rv : GoString) (u u1 : URL)
    (h : u1.RawQuery = (mutate rv u).RawQuery) :
    ((modifiedParamsOf rv u).foldl (fun q kv => Values.Set q kv.1 kv.2) u1.Query).Encode
      = u1.RawQuery := by
  have hn : (mapKeys u.Query).Nodup := nodup_mapKeys_ParseQuery _
  have hsn : (sortKeys (mapKeys u.Query)).Nodup := sortKeys_nodup _ hn
  have hq1 : u1.Query = (sortKeys (mapKeys u.Query)).map (fun k => (k, [rv])) := by
    show ParseQuery u1.RawQuery = _
    rw [h, mutate_RawQuery, ParseQuery_intercalate rv _ hsn (Query_keys_le u)]
  have hkeys1 : mapKeys u1.Query = sortKeys (mapKeys u.Query) := by
    rw [hq1]; simp [mapKeys, List.map_map, Function.comp_def]
  rw [modifiedParamsOf_eq, foldl_Set_pairs,
    foldl_Set_eq_map rv _ u1.Query (by rw [hkeys1]; exact hsn)
      (by intro k hk; rw [hkeys1]; exact (sortKeys_perm _).mem_iff.mpr hk)]
  have hsame : u1.Query.map (fun kv => if kv.1 ∈ mapKeys u.Query then (kv.1, [rv]) else kv)
      = u1.Query := by
    refine (List.map_congr_left ?_).trans (List.map_id _)
    intro kv hkv
    rw [hq1, List.mem_map] at hkv
    obtain ⟨k, _, rfl⟩ := hkv
    simp
  rw [hsame, Encode_of_all u1.Query rv (by
      intro kv hkv
      rw [hq1, List.mem_map] at hkv
      obtain ⟨k, _, rfl⟩ := hkv
      rfl),
    hkeys1, sortKeys_sortKeys, h, mutate_RawQuery]

/-! ## Part 3e: what `url.Parse` keeps of the query, `#` and `?` -/

theorem cut_append_left (sep : Byte) (a b : GoString) (h : sep ∉ a) :
    cut sep (a ++ b) = (a ++ (cut sep b).1, (cut sep b).2) := by
  induction a with
  | nil => simp
  | cons c a ih =>
    simp only [List.mem_cons, not_or] at h
    have hc : (c != sep) = true := by simpa using fun e => h.1 e.symm
    have ih' := ih h.2
    simp only [cut, List.cons_append, Prod.mk.injEq] at ih' ⊢
    rw [List.takeWhile_cons, List.dropWhile_cons]
    simp only [hc, if_true]
    exact ⟨by rw [ih'.1], ih'.2⟩

theorem cut_of_not_mem (sep : Byte) (a : GoString) (h : sep ∉ a) : cut sep a = (a, []) := by
  have := cut_append_left sep a [] h
  simpa [cut] using this

theorem cut_fst_not_mem (sep : Byte) (s : GoString) : sep ∉ (cut sep s).1 := by
  intro h
  have := List.mem_takeWhile_imp h
  simp at this

theorem cut_fst_sublist (sep : Byte) (s : GoString) : (cut sep s).1.Sublist s :=
  List.takeWhile_sublist _

theorem cut_snd_sublist (sep : Byte) (s : GoString) : (cut sep s).2.Sublist s :=
  (List.drop_sublist _ _).trans (List.dropWhile_sublist _)

/-- A string that ends with its only `sep`. -/
theorem dropLast_of_single_suffix (sep : Byte) (s : GoString)
    (he : endsWith s [sep] = true) (hc : countByte s sep = 1) :
    sep ∉ s.dropLast ∧ s = s.dropLast ++ [sep] := by
  unfold endsWith at he
  rw [List.isSuffixOf_iff_suffix] at he
  obtain ⟨t, rfl⟩ := he
  unfold countByte at hc
  rw [List.count_append] at hc
  simp only [List.count_singleton_self] at hc
  have h0 : List.count sep t = 0 := by omega
  simp only [List.dropLast_concat, and_true]
  exact List.count_eq_zero.mp h0

/-- The bytes a scheme is made of: ASCII letters, digits, `+`, `-`, `.`. -/
theorem getSchemeLoop_spec (raw : GoString) (seen s sch rest : GoString)
    (hseen : ∀ b ∈ seen, b ≠ 35 ∧ b ≠ 63)
    (h : getSchemeLoop raw seen s = .ok (sch, rest)) :
    (sch = [] ∧ rest = raw)
      ∨ (seen.reverse ++ s = sch ++ 58 :: rest ∧ ∀ b ∈ sch, b ≠ 35 ∧ b ≠ 63) := by
  induction s generalizing seen with
  | nil =>
    simp only [getSchemeLoop, Except.ok.injEq, Prod.mk.injEq] at h
    exact Or.inl ⟨h.1.symm, h.2.symm⟩
  | cons c s ih =>
    unfold getSchemeLoop at h
    split at h
    · rename_i hc
      have hc' : c ≠ 35 ∧ c ≠ 63 := by
        constructor <;> rintro rfl <;> revert hc <;> decide
      rcases ih (c :: seen) (by
          intro b hb
          rcases List.mem_cons.mp hb with rfl | hb
          · exact hc'
          · exact hseen b hb) h with h1 | h1
      · exact Or.inl h1
      · refine Or.inr ⟨?_, h1.2⟩
        rw [← h1.1]; simp
    · split at h
      · rename_i _ hc
        split at h
        · simp only [Except.ok.injEq, Prod.mk.injEq] at h
          exact Or.inl ⟨h.1.symm, h.2.symm⟩
        · have hc' : c ≠ 35 ∧ c ≠ 63 := by
            constructor <;> rintro rfl <;> revert hc <;> decide
          rcases ih (c :: seen) (by
              intro b hb
              rcases List.mem_cons.mp hb with rfl | hb
              · exact hc'
              · exact hseen b hb) h with h1 | h1
          · exact Or.inl h1
          · refine Or.inr ⟨?_, h1.2⟩
            rw [← h1.1]; simp
      · split at h
        · rename_i _ _ hc
          split at h
          · exact absurd h (by simp)
          · simp only [Except.ok.injEq, Prod.mk.injEq] at h
            refine Or.inr ⟨?_, ?_⟩
            · rw [← h.1, ← h.2, hc]
            · intro b hb
              rw [← h.1] at hb
              exact hseen b (List.mem_reverse.mp hb)
        · simp only [Except.ok.injEq, Prod.mk.injEq] at h
          exact Or.inl ⟨h.1.symm, h.2.symm⟩

theorem getScheme_spec (raw sch rest : GoString) (h : getScheme raw = .ok (sch, rest)) :
    (sch = [] ∧ rest = raw) ∨ (raw = sch ++ 58 :: rest ∧ ∀ b ∈ sch, b ≠ 35 ∧ b ≠ 63) := by
  have := getSchemeLoop_spec raw [] raw sch rest (by simp) h
  simpa using this

theorem toLowerByte_clean : ∀ b : Byte, b ≠ 35 ∧ b ≠ 63 →
    toLowerByte b ≠ 35 ∧ toLowerByte b ≠ 63 := by
  decide

theorem setPath_inv (u u1 : URL) (p : GoString) (h : URL.setPath u p = .ok u1) :
    u1.Scheme = u.Scheme ∧ u1.Opaque = u.Opaque ∧ u1.RawQuery = u.RawQuery
      ∧ (u1.RawPath = [] ∨ u1.RawPath = p) := by
  unfold URL.setPath at h
  split at h
  · exact absurd h (by simp)
  · split at h
    · simp only [Except.ok.injEq] at h
      subst h
      simp
    · simp only [Except.ok.injEq] at h
      subst h
      simp

theorem setFragment_inv (u u1 : URL) (f : GoString) (h : URL.setFragment u f = .ok u1) :
    u1.Scheme = u.Scheme ∧ u1.Opaque = u.Opaque ∧ u1.RawQuery = u.RawQuery
      ∧ u1.RawPath = u.RawPath := by
  unfold URL.setFragment at h
  split at h
  · exact absurd h (by simp)
  · split at h
    · simp only [Except.ok.injEq] at h
      subst h
      simp
    · simp only [Except.ok.injEq] at h
      subst h
      simp

theorem parseRest_inv (url u : URL) (rest : GoString) (h : parseRest url rest = .ok u) :
    u.Scheme = url.Scheme ∧ u.RawQuery = url.RawQuery
      ∧ (u.Opaque = url.Opaque ∨ u.Opaque = rest)
      ∧ (u.RawPath = [] ∨ u.RawPath = url.RawPath ∨ u.RawPath.Sublist rest) := by
  unfold parseRest at h
  split at h
  · simp only [Except.ok.injEq] at h
    subst h
    simp
  · split at h
    · exact absurd h (by simp)
    · split at h
      · simp only at h
        split at h
        · exact absurd h (by simp)
        · have hi := setPath_inv _ _ _ h
          refine ⟨hi.1, hi.2.2.1, Or.inl hi.2.1, ?_⟩
          rcases hi.2.2.2 with h0 | h0
          · exact Or.inl h0
          · refine Or.inr (Or.inr ?_)
            rw [h0]
            exact (List.drop_sublist _ _).trans (List.drop_sublist _ _)
      · split at h
        · have hi := setPath_inv _ _ _ h
          refine ⟨hi.1, hi.2.2.1, Or.inl hi.2.1, ?_⟩
          rcases hi.2.2.2 with h0 | h0
          · exact Or.inl h0
          · exact Or.inr (Or.inr (h0 ▸ List.Sublist.refl _))
        · have hi := setPath_inv _ _ _ h
          refine ⟨hi.1, hi.2.2.1, Or.inl hi.2.1, ?_⟩
          rcases hi.2.2.2 with h0 | h0
          · exact Or.inl h0
          · exact Or.inr (Or.inr (h0 ▸ List.Sublist.refl _))

theorem Clean_nil : Clean [] := by
  intro b hb
  simp at hb

theorem Clean_append {a b : GoString} (ha : Clean a) (hb : Clean b) : Clean (a ++ b) := by
  intro c hc
  rcases List.mem_append.mp hc with h | h
  · exact ha c h
  · exact hb c h

theorem Clean_of_sublist {a b : GoString} (h : a.Sublist b) (hb : Clean b) : Clean a :=
  fun c hc => hb c (h.subset hc)

theorem parseAfterScheme_inv (scheme0 rest0 : GoString) (u : URL)
    (hs : Clean scheme0) (hr : (35 : Byte) ∉ rest0)
    (h : parseAfterScheme scheme0 rest0 = .ok u) :
    u.RawQuery = (cut 63 rest0).2 ∧ Clean u.Scheme ∧ Clean u.Opaque ∧ Clean u.RawPath := by
  unfold parseAfterScheme at h
  simp only at h
  have hi := parseRest_inv _ _ _ h
  simp only at hi
  have hscheme : Clean (toLower scheme0) := by
    intro b hb
    unfold toLower at hb
    rw [List.mem_map] at hb
    obtain ⟨c, hc, rfl⟩ := hb
    exact toLowerByte_clean c (hs c hc)
  by_cases hf : (endsWith rest0 [63] && countByte rest0 63 == 1) = true
  · simp only [hf, if_true] at hi
    simp only [Bool.and_eq_true, beq_iff_eq] at hf
    have hd := dropLast_of_single_suffix 63 rest0 hf.1 hf.2
    have hcut : cut 63 rest0 = (rest0.dropLast, []) := by
      conv_lhs => rw [hd.2]
      exact cut_append_sep 63 _ _ hd.1
    have hrest : Clean rest0.dropLast := by
      intro b hb
      refine ⟨?_, ?_⟩
      · rintro rfl
        exact hr ((List.dropLast_sublist _).subset hb)
      · rintro rfl
        exact hd.1 hb
    refine ⟨by rw [hi.2.1, hcut], by rw [hi.1]; exact hscheme, ?_, ?_⟩
    · rcases hi.2.2.1 with h0 | h0
      · rw [h0]; exact Clean_nil
      · rw [h0]; exact hrest
    · rcases hi.2.2.2 with h0 | h0 | h0
      · rw [h0]; exact Clean_nil
      · rw [h0]; exact Clean_nil
      · exact Clean_of_sublist h0 hrest
  · simp only [hf, Bool.false_eq_true, if_false] at hi
    have hrest : Clean (cut 63 rest0).1 := by
      intro b hb
      refine ⟨?_, ?_⟩
      · rintro rfl
        exact hr ((cut_fst_sublist _ _).subset hb)
      · rintro rfl
        exact cut_fst_not_mem _ _ hb
    refine ⟨hi.2.1, by rw [hi.1]; exact hscheme, ?_, ?_⟩
    · rcases hi.2.2.1 with h0 | h0
      · rw [h0]; exact Clean_nil
      · rw [h0]; exact hrest
    · rcases hi.2.2.2 with h0 | h0 | h0
      · rw [h0]; exact Clean_nil
      · rw [h0]; exact Clean_nil
      · exact Clean_of_sublist h0 hrest

theorem parseNoFragment_inv (raw : GoString) (u : URL) (hr : (35 : Byte) ∉ raw)
    (h : parseNoFragment raw = .ok u) :
    u.RawQuery = (cut 63 raw).2 ∧ Clean u.Scheme ∧ Clean u.Opaque ∧ Clean u.RawPath := by
  unfold parseNoFragment at h
  split at h
  · exact absurd h (by simp)
  · split at h
    · rename_i hstar
      simp only [Except.ok.injEq] at h
      subst h
      subst hstar
      exact ⟨by decide, Clean_nil, Clean_nil, Clean_nil⟩
    · split at h
      · exact absurd h (by simp)
      · rename_i scheme0 rest0 hgs
        rcases getScheme_spec _ _ _ hgs with ⟨h1, h2⟩ | ⟨h1, h2⟩
        · subst h1 h2
          exact parseAfterScheme_inv [] _ u Clean_nil hr h
        · have hr0 : (35 : Byte) ∉ rest0 := by
            intro hb
            apply hr
            rw [h1]
            exact List.mem_append_right _ (List.mem_cons_of_mem _ hb)
          have hi := parseAfterScheme_inv scheme0 rest0 u h2 hr0 h
          refine ⟨?_, hi.2⟩
          rw [hi.1, h1]
          have hno : (63 : Byte) ∉ scheme0 ++ [58] := by
            intro hb
            rcases List.mem_append.mp hb with hb | hb
            · exact (h2 63 hb).2 rfl
            · exact absurd hb (by decide)
          have := cut_append_left 63 (scheme0 ++ [58]) rest0 hno
          rw [List.append_assoc, List.singleton_append] at this
          rw [this]

/-- What `url.Parse` returns: its `RawQuery` is the text between the first `?`
and the first `#` of the input, and neither byte occurs in its scheme, its
opaque part or its raw path. -/
theorem Parse_inv (s : GoString) (u : URL) (h : Parse s = .ok u) :
    u.RawQuery = (cut 63 (cut 35 s).1).2 ∧ Clean u.Scheme ∧ Clean u.Opaque ∧ Clean u.RawPath := by
  unfold Parse at h
  split at h
  · exact absurd h (by simp)
  · rename_i url hurl
    have hi := parseNoFragment_inv _ url (cut_fst_not_mem 35 s) hurl
    split at h
    · simp only [Except.ok.injEq] at h
      subst h
      exact hi
    · have hf := setFragment_inv _ _ _ h
      rw [hf.1, hf.2.1, hf.2.2.1, hf.2.2.2]
      exact hi

/-! ## Part 3f: what `URL.String` writes before the query -/

theorem escapeByte_clean_path : ∀ c : Byte,
    (escapeByte .encodePath c).all (fun b => b != 35 && b != 63) = true := by
  decide

theorem escapeByte_clean_host : ∀ c : Byte,
    (escapeByte .encodeHost c).all (fun b => b != 35 && b != 63) = true := by
  decide

theorem escapeByte_clean_user : ∀ c : Byte,
    (escapeByte .encodeUserPassword c).all (fun b => b != 35 && b != 63) = true := by
  decide

theorem escape_clean (s : GoString) (m : Encoding)
    (hm : ∀ c : Byte, (escapeByte m c).all (fun b => b != 35 && b != 63) = true) :
    Clean (escape s m) := by
  intro b hb
  unfold escape at hb
  rw [List.mem_flatMap] at hb
  obtain ⟨c, _, hc⟩ := hb
  have h := List.all_eq_true.mp (hm c) b hc
  simpa using h

theorem Userinfo_String_clean (ui : Userinfo) : Clean ui.String := by
  unfold Userinfo.String
  split
  · exact Clean_append (Clean_append (escape_clean _ _ escapeByte_clean_user)
      (by unfold Clean; decide)) (escape_clean _ _ escapeByte_clean_user)
  · exact escape_clean _ _ escapeByte_clean_user

theorem authorityString_clean (u : URL) : Clean u.authorityString := by
  unfold URL.authorityString
  split
  · split
    · exact Clean_nil
    · refine Clean_append (Clean_append ?_ ?_) ?_
      · split
        · unfold Clean; decide
        · exact Clean_nil
      · split
        · exact Clean_append (Userinfo_String_clean _) (by unfold Clean; decide)
        · exact Clean_nil
      · split
        · exact escape_clean _ _ escapeByte_clean_host
        · exact Clean_nil
  · exact Clean_nil

theorem EscapedPath_clean (u : URL) (hR : Clean u.RawPath) : Clean u.EscapedPath := by
  unfold URL.EscapedPath
  split
  · exact hR
  · split
    · unfold Clean; decide
    · exact escape_clean _ _ escapeByte_clean_path

theorem Clean_ite {c : Prop} [Decidable c] {a b : GoString} (ha : Clean a) (hb : Clean b) :
    Clean (if c then a else b) := by
  split
  · exact ha
  · exact hb

theorem pathString_clean (u : URL) (hR : Clean u.RawPath) : Clean u.pathString := by
  unfold URL.pathString
  split
  · refine Clean_append (by unfold Clean; decide) ?_
    exact Clean_of_sublist (List.drop_sublist _ _) (EscapedPath_clean u hR)
  · exact EscapedPath_clean u hR

theorem headString_clean (u : URL) (hS : Clean u.Scheme) (hO : Clean u.Opaque)
    (hR : Clean u.RawPath) : Clean u.headString := by
  have h58 : Clean [58] := by unfold Clean; decide
  have h47 : Clean [47] := by unfold Clean; decide
  have h4647 : Clean [46, 47] := by unfold Clean; decide
  have h0 : Clean u.schemeString := by
    unfold URL.schemeString
    exact Clean_ite (Clean_append hS h58) Clean_nil
  have h1 : Clean (u.schemeString ++ u.authorityString) :=
    Clean_append h0 (authorityString_clean u)
  unfold URL.headString
  simp only
  split
  · exact Clean_append h0 hO
  · refine Clean_append ?_ (pathString_clean u hR)
    have h2 := Clean_ite (c := (u.EscapedPath != [] && u.EscapedPath.head? != some 47
      && u.Host != []) = true) (Clean_append h1 h47) h1
    exact Clean_ite (Clean_append h2 h4647) h2

/-- Cutting what `URL.String` wrote at the first `#` and then at the first `?`
gives back the query. -/
theorem cut_String (u : URL) (hH : Clean u.headString) (hQ : Clean u.RawQuery) :
    (cut 63 (cut 35 u.String).1).2 = u.RawQuery := by
  have h63 : (63 : Byte) ∉ u.headString := fun hb => (hH 63 hb).2 rfl
  have hcut2 : (cut 63 (u.headString
      ++ (if (u.ForceQuery || u.RawQuery != []) = true then [63] ++ u.RawQuery else []))).2
      = u.RawQuery := by
    by_cases hq : (u.ForceQuery || u.RawQuery != []) = true
    · rw [if_pos hq]
      exact congrArg Prod.snd (cut_append_sep 63 _ u.RawQuery h63)
    · rw [if_neg hq, List.append_nil, cut_of_not_mem 63 _ h63]
      simp only [Bool.or_eq_true, bne_iff_ne, ne_eq, not_or, Decidable.not_not] at hq
      exact hq.2.symm
  have h35 : (35 : Byte) ∉ u.headString
      ++ (if (u.ForceQuery || u.RawQuery != []) = true then [63] ++ u.RawQuery else []) := by
    intro hb
    rcases List.mem_append.mp hb with hb | hb
    · exact (hH 35 hb).1 rfl
    · by_cases hq : (u.ForceQuery || u.RawQuery != []) = true
      · rw [if_pos hq] at hb
        rcases List.mem_append.mp hb with hb | hb
        · exact absurd hb (by decide)
        · exact (hQ 35 hb).1 rfl
      · rw [if_neg hq] at hb
        simp at hb
  have hcut1 : (cut 35 u.String).1 = u.headString
      ++ (if (u.ForceQuery || u.RawQuery != []) = true then [63] ++ u.RawQuery else []) := by
    unfold URL.String
    by_cases hf : (u.Fragment != []) = true
    · rw [if_pos hf]
      exact congrArg Prod.fst (cut_append_sep 35 _ u.EscapedFragment h35)
    · rw [if_neg hf, List.append_nil, cut_of_not_mem 35 _ h35]
  rw [hcut1, hcut2]

theorem mem_intercalate_singleton (sep : Byte) (ls : List GoString) (b : Byte)
    (h : b ∈ [sep].intercalate ls) : b = sep ∨ ∃ l ∈ ls, b ∈ l := by
  induction ls with
  | nil => simp [List.intercalate] at h
  | cons x xs ih =>
    cases xs with
    | nil =>
      simp only [List.intercalate, List.intersperse, List.flatten, List.append_nil] at h
      exact Or.inr ⟨x, List.mem_cons_self _ _, h⟩
    | cons y ys =>
      simp only [List.intercalate, List.intersperse, List.flatten, List.mem_append,
        List.mem_singleton] at h ih
      rcases h with h | h | h
      · exact Or.inr ⟨x, List.mem_cons_self _ _, h⟩
      · exact Or.inl h
      · rcases ih h with h | ⟨l, hl, hb⟩
        · exact Or.inl h
        · exact Or.inr ⟨l, List.mem_cons_of_mem _ hl, hb⟩

theorem mutate_RawQuery_clean (rv : GoString) (u : URL) : Clean (mutate rv u).RawQuery := by
  rw [mutate_RawQuery]
  intro b hb
  rcases mem_intercalate_singleton _ _ _ hb with rfl | ⟨l, hl, hbl⟩
  · decide
  · rw [List.mem_map] at hl
    obtain ⟨k, _, rfl⟩ := hl
    unfold encodePair at hbl
    simp only [List.mem_append, List.mem_singleton] at hbl
    rcases hbl with (h | h) | h
    · exact ⟨(QueryEscape_bytes k b h).2.2.2.1, (QueryEscape_bytes k b h).2.2.2.2⟩
    · subst h; decide
    · exact ⟨(QueryEscape_bytes rv b h).2.2.2.1, (QueryEscape_bytes rv b h).2.2.2.2⟩

theorem mutate_headString (rv : GoString) (u : URL) : (mutate rv u).headString = u.headString :=
  rfl

/-- The substitution of `replaceParamsInURL` changes nothing in the URL it
parsed out of a mutated URL string. -/
theorem replaceParamsInURL_mutated (rv req : GoString) (u : URL) (h : Parse req = .ok u) :
    replaceParamsInURL (mutate rv u).String (modifiedParamsOf rv u)
      = match Parse (mutate rv u).String with
        | .error _ => (mutate rv u).String
        | .ok u1 => u1.String := by
  unfold replaceParamsInURL
  cases hp : Parse (mutate rv u).String with
  | error e => rfl
  | ok u1 =>
    simp only
    have hi := Parse_inv req u h
    have hh : Clean (mutate rv u).headString := by
      rw [mutate_headString]
      exact headString_clean u hi.2.1 hi.2.2.1 hi.2.2.2
    have hq1 : u1.RawQuery = (mutate rv u).RawQuery := by
      rw [(Parse_inv _ u1 hp).1]
      exact cut_String _ hh (mutate_RawQuery_clean rv u)
    rw [replace_query_fixed rv u u1 hq1]

/-! ## Part 3g: `strings.Contains` -/

theorem indexOf_isSome_iff (sub s : GoString) : (indexOf sub s).isSome = true ↔ sub <:+: s := by
  induction s with
  | nil =>
    unfold indexOf
    cases sub with
    | nil => simp
    | cons c t => simp
  | cons c s ih =>
    unfold indexOf
    rw [List.infix_cons_iff]
    by_cases hp : sub.isPrefixOf (c :: s) = true
    · simp only [hp, if_true, Option.isSome_some, true_iff]
      exact Or.inl (List.isPrefixOf_iff_prefix.mp hp)
    · simp only [hp, Bool.false_eq_true, if_false, Option.isSome_map']
      rw [ih]
      constructor
      · exact Or.inr
      · rintro (h | h)
        · exact absurd (List.isPrefixOf_iff_prefix.mpr h) hp
        · exact h

/-- `strings.Contains` decides whether `sub` is a contiguous part of `s`. -/
theorem Contains_iff (s sub : GoString) : Contains s sub = true ↔ sub <:+: s :=
  indexOf_isSome_iff sub s

/-- The effects of the goroutine when the URL parses and the body is read. -/
theorem worker_of_body (rv req body : GoString) (net : GoString → Fetch) (u : URL)
    (hparse : Parse req = .ok u) (hnet : net (mutate rv u).String = .body body) :
    processRequests.worker rv net req
      = .get (mutate rv u).String ::
          (if Contains body rv then
            [.print (reportLine (replaceParamsInURL (mutate rv u).String
              (modifiedParamsOf rv u))), .done]
          else [.done]) := by
  unfold processRequests.worker
  simp only [hparse, hnet]

/-! ## Part 3h: the goroutines -/

theorem runFrom_nil (cfg : Config) (s : State) : runFrom cfg s [] = some s := rfl

theorem runFrom_cons (cfg : Config) (s : State) (a : Action) (sched : List Action) :
    runFrom cfg s (a :: sched) = (step cfg s a).bind (fun s1 => runFrom cfg s1 sched) := by
  unfold runFrom
  rw [List.foldlM_cons]
  rfl

theorem runFrom_append (cfg : Config) (s : State) (p q : List Action) :
    runFrom cfg s (p ++ q) = (runFrom cfg s p).bind (fun s1 => runFrom cfg s1 q) := by
  unfold runFrom
  rw [List.foldlM_append]
  rfl

theorem run_eq_runFrom (cfg : Config) (sched : List Action) :
    run cfg sched = runFrom cfg (init cfg) sched := rfl

/-- A property that holds at the start and that every step keeps holds after
every schedule. -/
theorem runFrom_invariant (cfg : Config) (P : State → Prop)
    (hstep : ∀ s a s1, P s → step cfg s a = some s1 → P s1)
    (sched : List Action) (s0 s : State) (h0 : P s0) (h : runFrom cfg s0 sched = some s) :
    P s := by
  induction sched generalizing s0 with
  | nil =>
    simp only [runFrom_nil, Option.some.injEq] at h
    exact h ▸ h0
  | cons a sched ih =>
    rw [runFrom_cons] at h
    cases hs : step cfg s0 a with
    | none => rw [hs] at h; simp at h
    | some s1 =>
      rw [hs] at h
      exact ih s1 (hstep s0 a s1 h0 hs) h

/-- Every way out of the goroutine calls `Done` exactly once, as its last
effect. -/
theorem worker_done_once (rv : GoString) (net : GoString → Fetch) (req : GoString) :
    (processRequests.worker rv net req).count .done = 1
      ∧ (processRequests.worker rv net req).getLast? = some .done := by
  unfold processRequests.worker
  cases Parse req with
  | error e => simp
  | ok u =>
    simp only
    cases net (mutate rv u).String with
    | transportError e => simp
    | readError e => simp
    | body b =>
      simp only
      split <;> simp

theorem sum_map_set {α : Type} (f : α → Nat) (l : List α) (i : Nat) (w w1 : α)
    (h : l.get? i = some w) :
    ((l.set i w1).map f).sum + f w = (l.map f).sum + f w1 := by
  induction l generalizing i with
  | nil => simp at h
  | cons x l ih =>
    cases i with
    | zero =>
      simp only [List.get?_cons_zero, Option.some.injEq] at h
      subst h
      simp only [List.set_cons_zero, List.map_cons, List.sum_cons]
      omega
    | succ i =>
      simp only [List.get?_cons_succ] at h
      have := ih i h
      simp only [List.set_cons_succ, List.map_cons, List.sum_cons]
      omega

theorem le_sum_map_of_get {α : Type} (f : α → Nat) (l : List α) (i : Nat) (w : α)
    (h : l.get? i = some w) : f w ≤ (l.map f).sum := by
  induction l generalizing i with
  | nil => simp at h
  | cons x l ih =>
    cases i with
    | zero =>
      simp only [List.get?_cons_zero, Option.some.injEq] at h
      subst h
      simp
    | succ i =>
      simp only [List.get?_cons_succ] at h
      have h3 := ih i h
      simp only [List.map_cons, List.sum_cons]
      omega

/-! ## Part 3i: the two wait groups -/

theorem WgInv_init (cfg : Config) : WgInv cfg (init cfg) := by
  refine ⟨rfl, rfl, rfl, rfl, ?_, ?_⟩
  · intro h
    rcases h with h | h <;> simp [init] at h
  · intro h
    exact Or.inr h

theorem WgInv_mainStep (cfg : Config) (s s1 : State) (hi : WgInv cfg s)
    (h : main.step cfg s = some s1) : WgInv cfg s1 := by
  obtain ⟨h1, h2, h3, h4, h5, h6⟩ := hi
  unfold main.step at h
  split at h
  · split at h <;>
      (simp only [Option.some.injEq] at h; subst h; exact ⟨h1, h2, h3, h4, h5, h6⟩)
  · split at h
    · simp only [Option.some.injEq] at h
      subst h
      exact ⟨h1, h2, h3, h4, h5, h6⟩
    · split at h
      · rename_i hc
        simp only [Option.some.injEq] at h
        subst h
        have hd : s.dispPC = .recv := hc.1
        simp only [hd, DispPC.isSpawn, DispPC.isAdd] at h1 h2 h3
        refine ⟨?_, ?_, ?_, h4, ?_, h6⟩
        · simpa [DispPC.isSpawn] using h1
        · simp only [DispPC.isAdd, List.length_append, List.length_singleton, if_true]
          simp at h2
          omega
        · simpa [DispPC.isSpawn, pendingDones] using h3
        · intro hh
          rcases hh with hh | hh <;> simp at hh
      · exact absurd h (by simp)
  · split at h
    · simp only [Option.some.injEq] at h
      subst h
      exact ⟨h1, h2, h3, h4, h5, h6⟩
    · exact absurd h (by simp)
  · simp only [Option.some.injEq] at h
    subst h
    exact ⟨h1, h2, h3, h4, h5, h6⟩
  · simp only [Option.some.injEq] at h
    subst h
    exact ⟨h1, h2, h3, h4, h5, h6⟩
  · split at h
    · simp only [Option.some.injEq] at h
      subst h
      exact ⟨h1, h2, h3, h4, h5, h6⟩
    · exact absurd h (by simp)
  · exact absurd h (by simp)

theorem pendingDones_append (s : State) (w : List Event) :
    ((s.workers ++ [w]).map (fun w => w.count Event.done)).sum
      = pendingDones s + w.count Event.done := by
  simp [pendingDones]

theorem WgInv_dispatcherStep (cfg : Config) (s s1 : State) (hi : WgInv cfg s)
    (hp : s.panicked = false) (h : processRequests.step cfg s = some s1) : WgInv cfg s1 := by
  obtain ⟨h1, h2, h3, h4, h5, h6⟩ := hi
  unfold processRequests.step at h
  split at h
  · rename_i hd
    simp only [hd, DispPC.isSpawn, DispPC.isAdd] at h1 h2 h3
    split at h
    · simp only [Option.some.injEq] at h
      subst h
      refine ⟨?_, ?_, ?_, h4, ?_, h6⟩
      · simpa [DispPC.isSpawn] using h1
      · simp only [DispPC.isAdd, List.length_append, List.length_singleton, if_true]
        simp at h2
        omega
      · simpa [DispPC.isSpawn, pendingDones] using h3
      · intro hh
        rcases hh with hh | hh <;> simp at hh
    · split at h
      · simp only [Option.some.injEq] at h
        subst h
        refine ⟨?_, ?_, ?_, h4, ?_, h6⟩
        · simpa [DispPC.isSpawn] using h1
        · simpa [DispPC.isAdd] using h2
        · simpa [DispPC.isSpawn, pendingDones] using h3
        · intro hh
          rcases hh with hh | hh <;> simp at hh
      · exact absurd h (by simp)
  · rename_i request hd
    simp only [hd, DispPC.isSpawn, DispPC.isAdd] at h1 h2 h3
    simp only [Option.some.injEq] at h
    subst h
    refine ⟨?_, ?_, ?_, h4, ?_, h6⟩
    · simp only [DispPC.isSpawn, if_true]
      simp at h1
      omega
    · simp only [DispPC.isAdd]
      simp at h2
      simp
      omega
    · simp only [DispPC.isSpawn, if_true, pendingDones] at h3 ⊢
      simp at h3
      rw [h3]
      simp
    · intro hh
      rcases hh with hh | hh <;> simp at hh
  · rename_i request hd
    simp only [hd, DispPC.isSpawn, DispPC.isAdd] at h1 h2 h3
    simp only [Option.some.injEq] at h
    subst h
    have hw := (worker_done_once cfg.reflectValue cfg.net request).1
    refine ⟨?_, ?_, ?_, ?_, ?_, h6⟩
    · simp only [DispPC.isSpawn, List.length_append, List.length_singleton]
      simp at h1
      simp
      omega
    · simp only [DispPC.isAdd]
      simp at h2
      simp
      omega
    · simp only [DispPC.isSpawn, pendingDones] at h3 ⊢
      simp only [List.map_append, List.sum_append, List.map_cons, List.map_nil, List.sum_cons,
        List.sum_nil, hw]
      simp at h3
      rw [h3]
      simp
    · simp only [pendingDones, List.map_append, List.sum_append, List.map_cons, List.map_nil,
        List.sum_cons, List.sum_nil, hw, List.length_append, List.length_singleton]
      simp only [pendingDones] at h4
      omega
    · intro hh
      rcases hh with hh | hh <;> simp at hh
  · rename_i hd
    simp only [hd, DispPC.isSpawn, DispPC.isAdd] at h1 h2 h3
    split at h
    · rename_i hz
      simp only [Option.some.injEq] at h
      subst h
      refine ⟨?_, ?_, ?_, h4, ?_, h6⟩
      · simpa [DispPC.isSpawn] using h1
      · simpa [DispPC.isAdd] using h2
      · simpa [DispPC.isSpawn, pendingDones] using h3
      · intro _
        exact hz
    · exact absurd h (by simp)
  · rename_i hd
    simp only [hd, DispPC.isSpawn, DispPC.isAdd] at h1 h2 h3
    have hz : s.requestWg = 0 := h5 (Or.inl hd)
    split at h
    · rename_i hneg
      simp only [Option.some.injEq] at h
      subst h
      refine ⟨?_, ?_, ?_, h4, ?_, ?_⟩
      · simpa [hd, DispPC.isSpawn] using h1
      · simpa [hd, DispPC.isAdd] using h2
      · simpa [hd, DispPC.isSpawn, pendingDones] using h3
      · intro _
        exact hz
      · intro _
        exact Or.inl hneg
    · simp only [Option.some.injEq] at h
      subst h
      refine ⟨?_, ?_, ?_, h4, ?_, ?_⟩
      · simpa [DispPC.isSpawn] using h1
      · simpa [DispPC.isAdd] using h2
      · simpa [DispPC.isSpawn, pendingDones] using h3
      · intro _
        exact hz
      · intro hh
        simp only at hh
        rw [hp] at hh
        exact absurd hh (by simp)
  · exact absurd h (by simp)

theorem WgInv_workerStep (cfg : Config) (s s1 : State) (i : Nat) (hi : WgInv cfg s)
    (h : processRequests.workerStep s i = some s1) : WgInv cfg s1 := by
  obtain ⟨h1, h2, h3, h4, h5, h6⟩ := hi
  unfold processRequests.workerStep at h
  split at h
  · rename_i e rest hget
    simp only [Option.some.injEq] at h
    have hset := sum_map_set (fun w => w.count Event.done) s.workers i (e :: rest) rest hget
    have hle := le_sum_map_of_get (fun w => w.count Event.done) s.workers i (e :: rest) hget
    simp only at hset hle
    by_cases he : e = .done
    · subst he
      simp only [List.count_cons_self] at hset hle
      have hpd : 1 ≤ pendingDones s := by
        unfold pendingDones; omega
      have hwg : ¬ (s.requestWg - 1 < 0) := by
        rw [h3]; split <;> omega
      simp only [applyEvent, hwg, if_false] at h
      subst h
      have hnp : ¬ (s.dispPC = .signal ∨ s.dispPC = .returned) := by
        intro hh
        have := h5 hh
        rw [this] at h3
        split at h3 <;> omega
      refine ⟨?_, h2, ?_, ?_, ?_, h6⟩
      · simpa using h1
      · simp only [pendingDones] at h3 ⊢
        rw [h3]
        split <;> omega
      · simp only [pendingDones, List.length_set] at h4 ⊢
        omega
      · intro hh
        exact absurd hh hnp
    · have hc : (e :: rest).count Event.done = rest.count Event.done := by
        rw [List.count_cons]
        have : (e == Event.done) = false := by simpa using he
        simp [this]
      rw [hc] at hset
      have hpd : ((s.workers.set i rest).map (fun w => w.count Event.done)).sum
          = pendingDones s := by
        unfold pendingDones; omega
      have key : ∀ t : State, t.workers = s.workers.set i rest → t.dispPC = s.dispPC
          → t.adds = s.adds → t.received = s.received → t.requestWg = s.requestWg
          → t.dones = s.dones → t.panicked = s.panicked → t.wg = s.wg → WgInv cfg t := by
        intro t ht1 ht2 ht3 ht4 ht5 ht6 ht7 ht8
        refine ⟨?_, ?_, ?_, ?_, ?_, ?_⟩
        · rw [ht3, ht1, ht2, List.length_set]; exact h1
        · rw [ht4, ht3, ht2]; exact h2
        · rw [ht5, ht2]
          unfold pendingDones
          rw [ht1, hpd]
          exact h3
        · rw [ht6, ht1, List.length_set]
          unfold pendingDones
          rw [ht1, hpd]
          exact h4
        · rw [ht2, ht5]; exact h5
        · rw [ht7, ht8]; exact h6
      subst h
      cases e with
      | done => exact absurd rfl he
      | logParseFailed a b => exact key _ rfl rfl rfl rfl rfl rfl rfl rfl
      | get a => exact key _ rfl rfl rfl rfl rfl rfl rfl rfl
      | logSendFailed a b => exact key _ rfl rfl rfl rfl rfl rfl rfl rfl
      | logReadFailed a b => exact key _ rfl rfl rfl rfl rfl rfl rfl rfl
      | print a => exact key _ rfl rfl rfl rfl rfl rfl rfl rfl
  · exact absurd h (by simp)

theorem WgInv_step (cfg : Config) (s : State) (a : Action) (s1 : State) (hi : WgInv cfg s)
    (h : step cfg s a = some s1) : WgInv cfg s1 := by
  unfold step at h
  split at h
  · exact absurd h (by simp)
  · rename_i hrun
    have hp : s.panicked = false := by
      cases hpp : s.panicked
      · rfl
      · exact absurd (Or.inr hpp) hrun
    cases a with
    | main => exact WgInv_mainStep cfg s s1 hi h
    | dispatcher => exact WgInv_dispatcherStep cfg s s1 hi hp h
    | worker i => exact WgInv_workerStep cfg s s1 i hi h
    | tick =>
      simp only at h
      split at h
      · simp only [Option.some.injEq] at h
        subst h
        obtain ⟨h1, h2, h3, h4, h5, h6⟩ := hi
        exact ⟨h1, h2, h3, h4, h5, h6⟩
      · exact absurd h (by simp)

/-- The counters in every state the program reaches. -/
theorem WgInv_run (cfg : Config) (sched : List Action) (s : State)
    (h : run cfg sched = some s) : WgInv cfg s :=
  runFrom_invariant cfg (WgInv cfg) (fun s a s1 hi hs => WgInv_step cfg s a s1 hi hs)
    sched (init cfg) s (WgInv_init cfg) h

/-- The accounting of `requestWg` in every state the program reaches: one
`Add` per URL received (the URL just received still waits for its call), one
goroutine per `Add`, every way out of a goroutine ends with one `Done`, the
counter is the number of `Add` less the number of `Done` and is never
negative, and past `requestWg.Wait()` the two numbers are equal. It says
nothing of a run that ends before the goroutines are done. -/
theorem requestWg_accounting (cfg : Config) (sched : List Action) (s : State)
    (h : run cfg sched = some s) :
    s.received.length = s.adds + (if s.dispPC.isAdd then 1 else 0)
      ∧ s.adds = s.workers.length + (if s.dispPC.isSpawn then 1 else 0)
      ∧ (∀ req, (processRequests.worker cfg.reflectValue cfg.net req).count .done = 1
          ∧ (processRequests.worker cfg.reflectValue cfg.net req).getLast? = some .done)
      ∧ s.dones + pendingDones s = s.workers.length
      ∧ s.requestWg = (s.adds : Int) - (s.dones : Int)
      ∧ 0 ≤ s.requestWg
      ∧ (s.dispPC = .signal ∨ s.dispPC = .returned →
          s.dones = s.adds ∧ s.adds = s.received.length ∧ pendingDones s = 0) := by
  obtain ⟨h1, h2, h3, h4, h5, _⟩ := WgInv_run cfg sched s h
  refine ⟨h2, h1, fun req => worker_done_once _ _ req, h4, ?_, ?_, ?_⟩
  · rw [h3, h1]
    split <;> omega
  · rw [h3]
    split <;> omega
  · intro hp
    have hz := h5 hp
    have hs : s.dispPC.isSpawn = false := by
      rcases hp with hp | hp <;> rw [hp] <;> rfl
    have ha : s.dispPC.isAdd = false := by
      rcases hp with hp | hp <;> rw [hp] <;> rfl
    rw [hs] at h1 h3
    rw [ha] at h2
    simp only [Bool.false_eq_true, if_false, Nat.add_zero] at h1 h2
    rw [hz] at h3
    simp only [Bool.false_eq_true, if_false] at h3
    omega

/-! ## Part 3j: the feeder loop -/

theorem sendsOf_append (a b : List FeederOp) : sendsOf (a ++ b) = sendsOf a ++ sendsOf b := by
  simp [sendsOf, List.filterMap_append]

theorem feederDone_append (a b : List GoString) :
    feederDone (a ++ b) = feederDone a ++ feederDone b := by
  simp [feederDone, List.flatMap_append]

theorem sendsOf_feederDone (ls : List GoString) : sendsOf (feederDone ls) = ls := by
  induction ls with
  | nil => rfl
  | cons l ls ih =>
    have : feederDone (l :: ls) = [FeederOp.send l, FeederOp.tick] ++ feederDone ls := by
      simp [feederDone, List.flatMap_cons]
    rw [this, sendsOf_append, ih]
    rfl

theorem feederProgram_eq (ls : List GoString) :
    feederProgram ls = feederDone ls ++ [FeederOp.close] := rfl

theorem close_not_mem_feederDone (ls : List GoString) : FeederOp.close ∉ feederDone ls := by
  unfold feederDone
  rw [List.mem_flatMap]
  rintro ⟨l, _, h⟩
  simp at h

/-- The feeder invariant reads six fields of the state only. -/
theorem FeederInv_congr (cfg : Config) (s t : State) (h : FeederInv cfg s)
    (h1 : t.feederTrace = s.feederTrace) (h2 : t.received = s.received)
    (h3 : t.queue = s.queue) (h4 : t.mainPC = s.mainPC) (h5 : t.closed = s.closed)
    (h6 : t.input = s.input) : FeederInv cfg t := by
  unfold FeederInv at h ⊢
  rw [h1, h2, h3, h4, h5, h6]
  exact h

theorem FeederInv_init (cfg : Config) : FeederInv cfg (init cfg) := by
  unfold FeederInv
  refine ⟨rfl, ?_⟩
  exact ⟨rfl, [], rfl, rfl⟩

theorem FeederInv_mainStep (cfg : Config) (s s1 : State) (hi : FeederInv cfg s)
    (h : main.step cfg s = some s1) : FeederInv cfg s1 := by
  unfold FeederInv at hi
  obtain ⟨hs, hm⟩ := hi
  unfold main.step at h
  split at h
  · rename_i hpc
    rw [hpc] at hm
    simp only at hm
    obtain ⟨hc, ls, hl, ht⟩ := hm
    split at h
    · rename_i l rest hin
      simp only [Option.some.injEq] at h
      subst h
      unfold FeederInv
      refine ⟨hs, ?_⟩
      simp only
      rw [hin] at hl
      exact ⟨hc, ls, hl, ht⟩
    · rename_i hin
      simp only [Option.some.injEq] at h
      subst h
      unfold FeederInv
      refine ⟨hs, ?_⟩
      simp only
      rw [hin, List.append_nil] at hl
      rw [← hl]
      exact ⟨hc, ht⟩
  · rename_i l hpc
    rw [hpc] at hm
    simp only at hm
    obtain ⟨hc, ls, hl, ht⟩ := hm
    split at h
    · simp only [Option.some.injEq] at h
      subst h
      unfold FeederInv
      refine ⟨?_, ?_⟩
      · simp only
        rw [sendsOf_append, hs, List.append_assoc]
        rfl
      · simp only
        exact ⟨hc, ls, l, hl, by rw [ht]⟩
    · split at h
      · rename_i hcond
        simp only [Option.some.injEq] at h
        subst h
        unfold FeederInv
        refine ⟨?_, ?_⟩
        · simp only
          rw [sendsOf_append, hs, hcond.2]
          simp [sendsOf]
        · simp only
          exact ⟨hc, ls, l, hl, by rw [ht]⟩
      · exact absurd h (by simp)
  · rename_i hpc
    rw [hpc] at hm
    simp only at hm
    obtain ⟨hc, ls, l, hl, ht⟩ := hm
    split at h
    · simp only [Option.some.injEq] at h
      subst h
      unfold FeederInv
      refine ⟨?_, ?_⟩
      · simp only
        rw [sendsOf_append, hs]
        simp [sendsOf]
      · simp only
        refine ⟨hc, ls ++ [l], by simpa using hl, ?_⟩
        rw [ht, feederDone_append, List.append_assoc]
        rfl
    · exact absurd h (by simp)
  · rename_i hpc
    rw [hpc] at hm
    simp only at hm
    simp only [Option.some.injEq] at h
    subst h
    unfold FeederInv
    refine ⟨?_, ?_⟩
    · simp only
      rw [sendsOf_append, hs]
      simp [sendsOf]
    · simp only
      refine ⟨trivial, ?_⟩
      rw [hm.2]
      rfl
  · rename_i hpc
    rw [hpc] at hm
    simp only at hm
    simp only [Option.some.injEq] at h
    subst h
    unfold FeederInv
    refine ⟨hs, ?_⟩
    by_cases hse : cfg.scanErr = true
    · simp only [hse, if_true]
      exact hm
    · simp only [hse, Bool.false_eq_true, if_false]
      exact hm
  · rename_i hpc
    rw [hpc] at hm
    simp only at hm
    split at h
    · simp only [Option.some.injEq] at h
      subst h
      unfold FeederInv
      exact ⟨hs, hm⟩
    · exact absurd h (by simp)
  · exact absurd h (by simp)

theorem FeederInv_dispatcherStep (cfg : Config) (s s1 : State) (hi : FeederInv cfg s)
    (h : processRequests.step cfg s = some s1) : FeederInv cfg s1 := by
  unfold processRequests.step at h
  split at h
  · split at h
    · rename_i r rest hq
      simp only [Option.some.injEq] at h
      subst h
      unfold FeederInv at hi ⊢
      refine ⟨?_, hi.2⟩
      simp only
      rw [hi.1, hq]
      simp
    · split at h
      · simp only [Option.some.injEq] at h
        subst h
        exact FeederInv_congr cfg s _ hi rfl rfl rfl rfl rfl rfl
      · exact absurd h (by simp)
  · simp only [Option.some.injEq] at h
    subst h
    exact FeederInv_congr cfg s _ hi rfl rfl rfl rfl rfl rfl
  · simp only [Option.some.injEq] at h
    subst h
    exact FeederInv_congr cfg s _ hi rfl rfl rfl rfl rfl rfl
  · split at h
    · simp only [Option.some.injEq] at h
      subst h
      exact FeederInv_congr cfg s _ hi rfl rfl rfl rfl rfl rfl
    · exact absurd h (by simp)
  · split at h <;>
      (simp only [Option.some.injEq] at h
       subst h
       exact FeederInv_congr cfg s _ hi rfl rfl rfl rfl rfl rfl)
  · exact absurd h (by simp)

theorem applyEvent_frame (s : State) (e : Event) :
    (applyEvent s e).feederTrace = s.feederTrace ∧ (applyEvent s e).received = s.received
      ∧ (applyEvent s e).queue = s.queue ∧ (applyEvent s e).mainPC = s.mainPC
      ∧ (applyEvent s e).closed = s.closed ∧ (applyEvent s e).input = s.input := by
  cases e <;> simp only [applyEvent] <;> (try split) <;> simp

theorem FeederInv_workerStep (cfg : Config) (s s1 : State) (i : Nat) (hi : FeederInv cfg s)
    (h : processRequests.workerStep s i = some s1) : FeederInv cfg s1 := by
  unfold processRequests.workerStep at h
  split at h
  · simp only [Option.some.injEq] at h
    subst h
    rename_i e rest _
    have hf := applyEvent_frame { s with workers := s.workers.set i rest } e
    exact FeederInv_congr cfg s _ hi hf.1 hf.2.1 hf.2.2.1 hf.2.2.2.1 hf.2.2.2.2.1 hf.2.2.2.2.2
  · exact absurd h (by simp)

theorem FeederInv_step (cfg : Config) (s : State) (a : Action) (s1 : State)
    (hi : FeederInv cfg s) (h : step cfg s a = some s1) : FeederInv cfg s1 := by
  unfold step at h
  split at h
  · exact absurd h (by simp)
  · cases a with
    | main => exact FeederInv_mainStep cfg s s1 hi h
    | dispatcher => exact FeederInv_dispatcherStep cfg s s1 hi h
    | worker i => exact FeederInv_workerStep cfg s s1 i hi h
    | tick =>
      simp only at h
      split at h
      · simp only [Option.some.injEq] at h
        subst h
        exact FeederInv_congr cfg s _ hi rfl rfl rfl rfl rfl rfl
      · exact absurd h (by simp)

/-- The feeder loop in every state the program reaches. -/
theorem FeederInv_run (cfg : Config) (sched : List Action) (s : State)
    (h : run cfg sched = some s) : FeederInv cfg s :=
  runFrom_invariant cfg (FeederInv cfg) (fun s a s1 hi hs => FeederInv_step cfg s a s1 hi hs)
    sched (init cfg) s (FeederInv_init cfg) h

/-- What the invariant says of the trace: it is an initial part of the
program of the loop, and it is the whole program exactly when the queue is
closed. -/
theorem FeederInv_trace (cfg : Config) (s : State) (hi : FeederInv cfg s) :
    s.feederTrace <+: feederProgram cfg.lines
      ∧ (s.closed = true ↔ s.feederTrace = feederProgram cfg.lines) := by
  unfold FeederInv at hi
  obtain ⟨_, hm⟩ := hi
  have hne : ∀ ls : List GoString, ∀ t : List FeederOp, FeederOp.close ∉ t →
      t ≠ feederProgram ls := by
    intro ls t ht he
    apply ht
    rw [he, feederProgram_eq]
    simp
  have hnd : ∀ ls : List GoString, FeederOp.close ∉ feederDone ls := close_not_mem_feederDone
  cases hpc : s.mainPC with
  | scan =>
    rw [hpc] at hm
    simp only at hm
    obtain ⟨hc, ls, hl, ht⟩ := hm
    refine ⟨?_, ?_⟩
    · rw [ht, feederProgram_eq, ← hl, feederDone_append, List.append_assoc]
      exact List.prefix_append _ _
    · rw [hc, ht]
      simp only [Bool.false_eq_true, false_iff]
      exact hne _ _ (hnd ls)
  | send l =>
    rw [hpc] at hm
    simp only at hm
    obtain ⟨hc, ls, hl, ht⟩ := hm
    refine ⟨?_, ?_⟩
    · rw [ht, feederProgram_eq, ← hl, feederDone_append, List.append_assoc]
      exact List.prefix_append _ _
    · rw [hc, ht]
      simp only [Bool.false_eq_true, false_iff]
      exact hne _ _ (hnd ls)
  | tick =>
    rw [hpc] at hm
    simp only at hm
    obtain ⟨hc, ls, l, hl, ht⟩ := hm
    refine ⟨?_, ?_⟩
    · rw [ht, feederProgram_eq, ← hl, feederDone_append]
      have : feederDone (l :: s.input)
          = [FeederOp.send l] ++ ([FeederOp.tick] ++ feederDone s.input) := by
        simp [feederDone, List.flatMap_cons]
      rw [this, List.append_assoc, List.append_assoc]
      rw [← List.append_assoc (feederDone ls) [FeederOp.send l]]
      exact List.prefix_append _ _
    · rw [hc, ht]
      simp only [Bool.false_eq_true, false_iff]
      apply hne
      simp only [List.mem_append, List.mem_singleton, not_or]
      exact ⟨hnd ls, by simp⟩
  | close =>
    rw [hpc] at hm
    simp only at hm
    refine ⟨?_, ?_⟩
    · rw [hm.2, feederProgram_eq]
      exact List.prefix_append _ _
    · rw [hm.1, hm.2]
      simp only [Bool.false_eq_true, false_iff]
      exact hne _ _ (hnd _)
  | errCheck =>
    rw [hpc] at hm
    simp only at hm
    exact ⟨by rw [hm.2], by rw [hm.1, hm.2]; simp⟩
  | wait =>
    rw [hpc] at hm
    simp only at hm
    exact ⟨by rw [hm.2], by rw [hm.1, hm.2]; simp⟩
  | exited =>
    rw [hpc] at hm
    simp only at hm
    exact ⟨by rw [hm.2], by rw [hm.1, hm.2]; simp⟩

/-! ## Part 3k: a run that feeds every line -/

/-- One turn of the feeder loop can always be completed when ticks arrive and
`processRequests` drains the queue. -/
theorem feeder_turn (cfg : Config) (s : State) (l : GoString) (rest : List GoString)
    (hd : 0 < tickDuration cfg) (hs : LoopTop s) (hin : s.input = l :: rest) :
    ∃ sched s1, runFrom cfg s sched = some s1 ∧ LoopTop s1 ∧ s1.input = rest := by
  obtain ⟨h1, h2, h3, h4, h5⟩ := hs
  by_cases hrate : (0 : Int) < cfg.rate
  · refine ⟨[.main, .main, .dispatcher, .dispatcher, .dispatcher, .tick, .main], ?_⟩
    simp [runFrom, List.foldlM, step, main.step, processRequests.step, h1, h2, h3, h4, h5, hin, hd,
      hrate, LoopTop]
  · have hr0 : ¬ ((0 : Int) < cfg.rate) := hrate
    refine ⟨[.main, .main, .dispatcher, .dispatcher, .tick, .main], ?_⟩
    simp [runFrom, List.foldlM, step, main.step, processRequests.step, h1, h2, h3, h4, h5, hin, hd,
      hr0, LoopTop]

theorem feeder_closes_from (cfg : Config) (hd : 0 < tickDuration cfg) (input : List GoString) :
    ∀ s : State, LoopTop s → s.input = input →
      ∃ sched s1, runFrom cfg s sched = some s1 ∧ s1.closed = true := by
  induction input with
  | nil =>
    intro s hs hin
    obtain ⟨h1, h2, h3, h4, h5⟩ := hs
    refine ⟨[.main, .main], ?_⟩
    simp [runFrom, List.foldlM, step, main.step, h1, h2, h3, h4, h5, hin]
  | cons l rest ih =>
    intro s hs hin
    obtain ⟨p, s1, hp, hs1, hin1⟩ := feeder_turn cfg s l rest hd hs hin
    obtain ⟨q, s2, hq, hc⟩ := ih s1 hs1 hin1
    refine ⟨p ++ q, s2, ?_, hc⟩
    rw [runFrom_append, hp]
    exact hq

/-- With a positive delay and a capacity that is not negative, some run
closes the queue. -/
theorem feeder_closes (cfg : Config) (hd : 0 < tickDuration cfg) (hr : makePanics cfg = false) :
    ∃ sched s, run cfg sched = some s ∧ s.closed = true := by
  have hinit : LoopTop (init cfg) := by
    refine ⟨rfl, rfl, rfl, rfl, ?_⟩
    exact hr
  exact feeder_closes_from cfg hd cfg.lines (init cfg) hinit rfl

/-- No `Add` is ever called on `wg`: its counter is zero until `wg.Done()`
runs, which panics; `processRequests` never returns. -/
theorem wg_zero_until_panic (cfg : Config) (sched : List Action) (s : State)
    (h : run cfg sched = some s) :
    (s.panicked = false → s.wg = 0) ∧ s.dispPC ≠ .returned := by
  refine runFrom_invariant cfg (fun s => (s.panicked = false → s.wg = 0) ∧ s.dispPC ≠ .returned)
    ?_ sched (init cfg) s ⟨fun _ => rfl, by simp [init]⟩ h
  intro s a s1 hi hs
  obtain ⟨hw, hd⟩ := hi
  unfold step at hs
  split at hs
  · exact absurd hs (by simp)
  · rename_i hrun
    have hp : s.panicked = false := by
      cases hpp : s.panicked
      · rfl
      · exact absurd (Or.inr hpp) hrun
    have hw0 := hw hp
    cases a with
    | main =>
      simp only at hs
      unfold main.step at hs
      split at hs
      · split at hs <;> (simp only [Option.some.injEq] at hs; subst hs; exact ⟨hw, hd⟩)
      · split at hs
        · simp only [Option.some.injEq] at hs; subst hs; exact ⟨hw, hd⟩
        · split at hs
          · simp only [Option.some.injEq] at hs; subst hs
            exact ⟨hw, by simp⟩
          · exact absurd hs (by simp)
      · split at hs
        · simp only [Option.some.injEq] at hs; subst hs; exact ⟨hw, hd⟩
        · exact absurd hs (by simp)
      · simp only [Option.some.injEq] at hs; subst hs; exact ⟨hw, hd⟩
      · simp only [Option.some.injEq] at hs; subst hs; exact ⟨hw, hd⟩
      · rw [if_pos hw0] at hs
        simp only [Option.some.injEq] at hs; subst hs; exact ⟨hw, hd⟩
      · exact absurd hs (by simp)
    | dispatcher =>
      simp only at hs
      unfold processRequests.step at hs
      split at hs
      · split at hs
        · simp only [Option.some.injEq] at hs; subst hs; exact ⟨hw, by simp⟩
        · split at hs
          · simp only [Option.some.injEq] at hs; subst hs; exact ⟨hw, by simp⟩
          · exact absurd hs (by simp)
      · simp only [Option.some.injEq] at hs; subst hs; exact ⟨hw, by simp⟩
      · simp only [Option.some.injEq] at hs; subst hs; exact ⟨hw, by simp⟩
      · split at hs
        · simp only [Option.some.injEq] at hs; subst hs; exact ⟨hw, by simp⟩
        · exact absurd hs (by simp)
      · split at hs
        · simp only [Option.some.injEq] at hs; subst hs
          exact ⟨by simp, hd⟩
        · rename_i hneg
          rw [hw0] at hneg
          exact absurd (by decide : (0 : Int) - 1 < 0) hneg
      · exact absurd hs (by simp)
    | worker i =>
      simp only at hs
      unfold processRequests.workerStep at hs
      split at hs
      · simp only [Option.some.injEq] at hs
        subst hs
        rename_i e rest _
        cases e <;> simp only [applyEvent] <;> (try split) <;>
          first
          | exact ⟨hw, hd⟩
          | exact ⟨by simp, hd⟩
      · exact absurd hs (by simp)
    | tick =>
      simp only at hs
      split at hs
      · simp only [Option.some.injEq] at hs; subst hs; exact ⟨hw, hd⟩
      · exact absurd hs (by simp)

/-- The order of what the feeder loop does, in every state the program
reaches: an initial part of one write and one tick per line, then one close;
and a run that does all of it exists when the ticker fires and `make` does
not panic. -/
theorem feeder_trace_is_initial_part (cfg : Config) (sched : List Action) (s : State)
    (h : run cfg sched = some s) :
    s.feederTrace <+: feederProgram cfg.lines
      ∧ (s.closed = true ↔ s.feederTrace = feederProgram cfg.lines)
      ∧ sendsOf s.feederTrace = s.received ++ s.queue
      ∧ sendsOf (feederProgram cfg.lines) = cfg.lines
      ∧ (feederProgram cfg.lines).count .close = 1
      ∧ (feederProgram cfg.lines).getLast? = some .close
      ∧ (0 < tickDuration cfg → makePanics cfg = false →
          ∃ sched1 s1, run cfg sched1 = some s1
            ∧ s1.feederTrace = feederProgram cfg.lines) := by
  have hi := FeederInv_run cfg sched s h
  have ht := FeederInv_trace cfg s hi
  refine ⟨ht.1, ht.2, hi.1, ?_, ?_, ?_, ?_⟩
  · rw [feederProgram_eq, sendsOf_append, sendsOf_feederDone]
    simp [sendsOf]
  · rw [feederProgram_eq, List.count_append,
      List.count_eq_zero.mpr (close_not_mem_feederDone cfg.lines)]
    rfl
  · rw [feederProgram_eq]
    simp
  · intro hd hr
    obtain ⟨sched1, s1, hrun, hc⟩ := feeder_closes cfg hd hr
    exact ⟨sched1, s1, hrun,
      (FeederInv_trace cfg s1 (FeederInv_run cfg sched1 s1 hrun)).2.mp hc⟩

/-! ## Part 3l: the feeder loop when the ticker never fires -/

theorem NoTickInv_congr (cfg : Config) (s t : State) (h : NoTickInv cfg s)
    (h1 : t.tickReady = s.tickReady) (h2 : t.closed = s.closed)
    (h3 : t.feederTrace = s.feederTrace) (h4 : t.mainPC = s.mainPC)
    (h5 : t.input = s.input) : NoTickInv cfg t := by
  unfold NoTickInv at h ⊢
  rw [h1, h2, h3, h4, h5]
  exact h

theorem NoTickInv_mainStep (cfg : Config) (s s1 : State) (hl : cfg.lines ≠ [])
    (hi : NoTickInv cfg s) (h : main.step cfg s = some s1) : NoTickInv cfg s1 := by
  obtain ⟨ht, hc, hm⟩ := hi
  rcases hm with ⟨hf, hpc, hin⟩ | ⟨hf, l, hpc⟩ | ⟨l, hf, hpc⟩
  · unfold main.step at h
    rw [hpc] at h
    simp only at h
    cases hinp : s.input with
    | nil => exact absurd (hin ▸ hinp) hl
    | cons l rest =>
      rw [hinp] at h
      simp only [Option.some.injEq] at h
      subst h
      exact ⟨ht, hc, Or.inr (Or.inl ⟨hf, l, rfl⟩)⟩
  · unfold main.step at h
    rw [hpc] at h
    simp only at h
    split at h
    · simp only [Option.some.injEq] at h
      subst h
      exact ⟨ht, hc, Or.inr (Or.inr ⟨l, by simp [hf], rfl⟩)⟩
    · split at h
      · simp only [Option.some.injEq] at h
        subst h
        exact ⟨ht, hc, Or.inr (Or.inr ⟨l, by simp [hf], rfl⟩)⟩
      · exact absurd h (by simp)
  · unfold main.step at h
    rw [hpc] at h
    simp only [ht, Bool.false_eq_true, if_false] at h
    exact absurd h (by simp)

theorem dispatcherStep_frame (cfg : Config) (s s1 : State)
    (h : processRequests.step cfg s = some s1) :
    s1.tickReady = s.tickReady ∧ s1.closed = s.closed ∧ s1.feederTrace = s.feederTrace
      ∧ s1.mainPC = s.mainPC ∧ s1.input = s.input := by
  unfold processRequests.step at h
  split at h
  · split at h
    · simp only [Option.some.injEq] at h; subst h; simp
    · split at h
      · simp only [Option.some.injEq] at h; subst h; simp
      · exact absurd h (by simp)
  · simp only [Option.some.injEq] at h; subst h; simp
  · simp only [Option.some.injEq] at h; subst h; simp
  · split at h
    · simp only [Option.some.injEq] at h; subst h; simp
    · exact absurd h (by simp)
  · split at h
    · simp only [Option.some.injEq] at h; subst h; simp
    · simp only [Option.some.injEq] at h; subst h; simp
  · exact absurd h (by simp)

theorem applyEvent_tickReady (s : State) (e : Event) :
    (applyEvent s e).tickReady = s.tickReady := by
  cases e <;> simp only [applyEvent] <;> (try split) <;> simp

theorem NoTickInv_step (cfg : Config) (hl : cfg.lines ≠ []) (hd : ¬ 0 < tickDuration cfg)
    (s : State) (a : Action) (s1 : State) (hi : NoTickInv cfg s)
    (h : step cfg s a = some s1) : NoTickInv cfg s1 := by
  unfold step at h
  split at h
  · exact absurd h (by simp)
  · cases a with
    | main => exact NoTickInv_mainStep cfg s s1 hl hi h
    | dispatcher =>
      have hf := dispatcherStep_frame cfg s s1 h
      exact NoTickInv_congr cfg s s1 hi hf.1 hf.2.1 hf.2.2.1 hf.2.2.2.1 hf.2.2.2.2
    | worker i =>
      simp only at h
      unfold processRequests.workerStep at h
      split at h
      · simp only [Option.some.injEq] at h
        subst h
        rename_i e rest _
        have hf := applyEvent_frame { s with workers := s.workers.set i rest } e
        exact NoTickInv_congr cfg s _ hi (applyEvent_tickReady _ e) hf.2.2.2.2.1 hf.1
          hf.2.2.2.1 hf.2.2.2.2.2
      · exact absurd h (by simp)
    | tick =>
      simp only [hd, if_false] at h
      exact absurd h (by simp)

/-- When the ticker never fires and the file is not empty, the feeder loop
never gets past the wait that follows its first write: at most one line is
written and the queue is never closed. -/
theorem NoTickInv_run (cfg : Config) (hl : cfg.lines ≠ []) (hd : ¬ 0 < tickDuration cfg)
    (sched : List Action) (s : State) (h : run cfg sched = some s) :
    s.closed = false ∧ s.feederTrace.length ≤ 1 := by
  have hi : NoTickInv cfg s :=
    runFrom_invariant cfg (NoTickInv cfg)
      (fun s a s1 hi hs => NoTickInv_step cfg hl hd s a s1 hi hs)
      sched (init cfg) s ⟨rfl, rfl, Or.inl ⟨rfl, rfl, rfl⟩⟩ h
  obtain ⟨_, hc, hm⟩ := hi
  refine ⟨hc, ?_⟩
  rcases hm with ⟨hf, _⟩ | ⟨hf, _⟩ | ⟨l, hf, _⟩ <;> simp [hf]

/-- The product `time.Duration(delay) * time.Millisecond` wraps: the flag
`-delay 9223372036855` gives a negative duration, and no ticker. -/
theorem tickDuration_wraps :
    tickDuration { twoLineNoDelay with delay := 9223372036855 } < 0 := by
  decide

/-! ## Part 3m: decoding what was escaped -/

theorem decodePlain_cons_ne (c : Byte) (s : GoString) (h : c ≠ 37) :
    decodePlain (c :: s) = c :: decodePlain s := by
  match s with
  | [] => rfl
  | [d] => rfl
  | d :: e :: s => simp [decodePlain, h]

theorem decodePlain_pct (h1 h2 : Byte) (s : GoString) :
    decodePlain (37 :: h1 :: h2 :: s) = hexValue h1 h2 :: decodePlain s := by
  simp [decodePlain]

/-- What a successful `unescape` did to the first byte. -/
theorem unescape_cons_inv (m : Encoding) (c : Byte) (s t : GoString)
    (h : unescape m (c :: s) = .ok t) :
    (c = 37 ∧ ∃ h1 h2 s1 t1, s = h1 :: h2 :: s1 ∧ unescape m s1 = .ok t1
        ∧ t = hexValue h1 h2 :: t1)
      ∨ (c ≠ 37 ∧ ∃ t1, unescape m s = .ok t1
        ∧ t = (if c = 43 ∧ m = .encodeQueryComponent then 32 else c) :: t1) := by
  by_cases hc : c = 37
  · subst hc
    left
    refine ⟨rfl, ?_⟩
    match s with
    | [] => simp [unescape] at h
    | [d] => simp [unescape] at h
    | h1 :: h2 :: s1 =>
      unfold unescape at h
      simp only [if_true] at h
      split at h
      · exact absurd h (by simp)
      · split at h
        · exact absurd h (by simp)
        · split at h
          · exact absurd h (by simp)
          · cases hu : unescape m s1 with
            | error e => rw [hu] at h; simp [Except.map] at h
            | ok t1 =>
              rw [hu] at h
              simp only [Except.map, Except.ok.injEq] at h
              exact ⟨h1, h2, s1, t1, rfl, hu, h.symm⟩
  · right
    refine ⟨hc, ?_⟩
    by_cases hp : c = 43
    · subst hp
      rw [unescape_cons_plus] at h
      cases hu : unescape m s with
      | error e => rw [hu] at h; simp [Except.map] at h
      | ok t1 =>
        rw [hu] at h
        simp only [Except.map, Except.ok.injEq] at h
        refine ⟨t1, rfl, ?_⟩
        rw [← h]
        by_cases hm : m = .encodeQueryComponent <;> simp [hm]
    · have hhost : ¬((m = .encodeHost ∨ m = .encodeZone) ∧ c.val < 128
          ∧ shouldEscape c .encodeHost) := by
        intro hh
        match s with
        | [] => simp [unescape, hc, hp, hh] at h
        | [d] => simp [unescape, hc, hp, hh] at h
        | d :: e :: s1 => simp [unescape, hc, hp, hh] at h
      rw [unescape_cons_plain m c s hc hp hhost] at h
      cases hu : unescape m s with
      | error e => rw [hu] at h; simp [Except.map] at h
      | ok t1 =>
        rw [hu] at h
        simp only [Except.map, Except.ok.injEq] at h
        refine ⟨t1, rfl, ?_⟩
        rw [← h]
        simp [hp]

theorem decodePlain_append_aux (m : Encoding) (hm : m ≠ .encodeQueryComponent) (n : Nat) :
    ∀ p t q : GoString, p.length ≤ n → unescape m p = .ok t →
      decodePlain (p ++ q) = t ++ decodePlain q := by
  induction n with
  | zero =>
    intro p t q hl h
    have : p = [] := List.length_eq_zero.mp (Nat.le_zero.mp hl)
    subst this
    simp only [unescape, Except.ok.injEq] at h
    subst h
    rfl
  | succ n ih =>
    intro p t q hl h
    match p with
    | [] =>
      simp only [unescape, Except.ok.injEq] at h
      subst h
      rfl
    | c :: s =>
      rcases unescape_cons_inv m c s t h with ⟨hc, h1, h2, s1, t1, hs, hu, ht⟩
        | ⟨hc, t1, hu, ht⟩
      · subst hc hs ht
        simp only [List.cons_append]
        rw [decodePlain_pct, ih s1 t1 q (by simp at hl; omega) hu]
      · subst ht
        simp only [List.cons_append]
        rw [decodePlain_cons_ne c _ hc, ih s t1 q (by simpa using hl) hu]
        simp [hm]

/-- Outside a query component, what `unescape` returns is the plain decoding,
and the decoding goes on independently after it. -/
theorem decodePlain_append (m : Encoding) (hm : m ≠ .encodeQueryComponent)
    (p t q : GoString) (h : unescape m p = .ok t) :
    decodePlain (p ++ q) = t ++ decodePlain q :=
  decodePlain_append_aux m hm p.length p t q (Nat.le_refl _) h

theorem unescape_eq_decodePlain (m : Encoding) (hm : m ≠ .encodeQueryComponent)
    (p t : GoString) (h : unescape m p = .ok t) : t = decodePlain p := by
  have := decodePlain_append m hm p t [] h
  simpa [decodePlain] using this.symm

theorem shouldEscape_pct (m : Encoding) : shouldEscape 37 m = true := by
  cases m <;> decide

/-- Decoding undoes escaping, outside a query component. -/
theorem decodePlain_escape_append (m : Encoding) (hm : m ≠ .encodeQueryComponent)
    (a q : GoString) : decodePlain (escape a m ++ q) = a ++ decodePlain q := by
  induction a with
  | nil => simp [escape]
  | cons c a ih =>
    have hcons : escape (c :: a) m ++ q = escapeByte m c ++ (escape a m ++ q) := by
      simp [escape, List.flatMap_cons]
    rw [hcons]
    unfold escapeByte
    simp only [hm, and_false, if_false]
    by_cases hesc : shouldEscape c m = true
    · simp only [hesc, if_true, List.cons_append, List.nil_append]
      rw [decodePlain_pct, (upperhex_roundtrip c).2, ih]
    · have hc : c ≠ 37 := by
        rintro rfl
        exact hesc (shouldEscape_pct m)
      simp only [hesc, Bool.false_eq_true, if_false, List.singleton_append]
      rw [decodePlain_cons_ne c _ hc, ih]
      rfl

theorem decodePlain_escape (m : Encoding) (hm : m ≠ .encodeQueryComponent) (a : GoString) :
    decodePlain (escape a m) = a := by
  have := decodePlain_escape_append m hm a []
  simpa [decodePlain] using this

theorem decodePlain_of_no_pct (s : GoString) (h : (37 : Byte) ∉ s) : decodePlain s = s := by
  induction s with
  | nil => rfl
  | cons c s ih =>
    simp only [List.mem_cons, not_or] at h
    rw [decodePlain_cons_ne c s (fun e => h.1 e.symm), ih h.2]

/-- Escaping is one-to-one, outside a query component. -/
theorem escape_injective (m : Encoding) (hm : m ≠ .encodeQueryComponent) {a b : GoString}
    (h : escape a m = escape b m) : a = b := by
  rw [← decodePlain_escape m hm a, h, decodePlain_escape m hm b]

/-! ## Part 4: the claims -/

set_option linter.unusedVariables false

/-- C1. For every input URL that parses with at least one query parameter and
every marker, whatever the order `ks` in which the loop ranges over the keys:
the rebuilt query mapping has exactly the keys of the original mapping, every
value under every key is the marker alone, and `modifiedParams` holds exactly
those keys, each mapped to the marker. -/
theorem substitution_keeps_key_set (req reflectValue : GoString) (u : URL) (ks : List GoString)
    (hparse : Parse req = .ok u) (hq : u.Query ≠ []) (hks : ks.Perm (mapKeys u.Query)) :
    mapKeys (substituteLoop reflectValue ks ([], u.Query)).2 = mapKeys u.Query
      ∧ (∀ kv ∈ (substituteLoop reflectValue ks ([], u.Query)).2, kv.2 = [reflectValue])
      ∧ (mapKeys (substituteLoop reflectValue ks ([], u.Query)).1).Perm (mapKeys u.Query)
      ∧ (mapKeys (substituteLoop reflectValue ks ([], u.Query)).1).Nodup
      ∧ (∀ kv ∈ (substituteLoop reflectValue ks ([], u.Query)).1, kv.2 = reflectValue) := by
  have hn : (mapKeys u.Query).Nodup := nodup_mapKeys_ParseQuery _
  rw [substituteLoop_snd_eq reflectValue u.Query ks hn hks,
    substituteLoop_fst_eq reflectValue u.Query ks hn hks]
  have hkeys : mapKeys (ks.map (fun k => (k, reflectValue))) = ks := by
    simp [mapKeys, List.map_map, Function.comp_def]
  refine ⟨mapKeys_map_const _ _, ?_, ?_, ?_, ?_⟩
  · intro kv hkv
    rw [List.mem_map] at hkv
    obtain ⟨kv', _, rfl⟩ := hkv
    rfl
  · rw [hkeys]; exact hks
  · rw [hkeys]; exact hks.nodup_iff.mpr hn
  · intro kv hkv
    rw [List.mem_map] at hkv
    obtain ⟨k, _, rfl⟩ := hkv
    rfl

/-- C1, at the URL `http://example.com/a?x=1&y=2` with the marker `MARK123`,
the loop visiting `y` before `x`. -/
theorem substitution_keeps_key_set_witness :
    Parse (lit "http://example.com/a?x=1&y=2") = .ok exampleURL
      ∧ mapKeys (substituteLoop (lit "MARK123") [lit "y", lit "x"] ([], exampleURL.Query)).2
        = [lit "x", lit "y"] :=
  ⟨by decide,
    (substitution_keeps_key_set (lit "http://example.com/a?x=1&y=2") (lit "MARK123")
      exampleURL [lit "y", lit "x"] (by decide) (by decide) (by decide)).1⟩

/-- C4. For every URL that parses, every marker and every response whose GET
and body read succeed: the goroutine writes exactly one report line when the
marker is a contiguous run of bytes of the body, compared byte for byte, and
writes nothing otherwise. -/
theorem report_iff_marker_in_body (reflectValue req body : GoString) (net : GoString → Fetch)
    (u : URL) (hparse : Parse req = .ok u)
    (hnet : net (mutate reflectValue u).String = .body body) :
    (reflectValue <:+: body →
        stdoutOf (processRequests.worker reflectValue net req)
          = [reportLine (replaceParamsInURL (mutate reflectValue u).String
              (modifiedParamsOf reflectValue u))])
      ∧ (¬ reflectValue <:+: body →
        stdoutOf (processRequests.worker reflectValue net req) = []) := by
  rw [worker_of_body reflectValue req body net u hparse hnet]
  constructor
  · intro h
    rw [if_pos ((Contains_iff body reflectValue).mpr h)]
    rfl
  · intro h
    rw [if_neg (fun hc => h ((Contains_iff body reflectValue).mp hc))]
    rfl

/-- C4, at the URL `http://h/?x=1` with the marker `M` and a network that
answers `aMb`. -/
theorem report_iff_marker_in_body_witness :
    Parse (lit "http://h/?x=1") = .ok shortURL
      ∧ echoNet (mutate (lit "M") shortURL).String = .body (lit "aMb")
      ∧ stdoutOf (processRequests.worker (lit "M") echoNet (lit "http://h/?x=1"))
        = [reportLine (replaceParamsInURL (mutate (lit "M") shortURL).String
            (modifiedParamsOf (lit "M") shortURL))] :=
  ⟨by decide, rfl,
    (report_iff_marker_in_body (lit "M") (lit "http://h/?x=1") (lit "aMb") echoNet shortURL
      (by decide) rfl).1 ((Contains_iff _ _).mp (by decide))⟩

/-- C5. For every input on which `url.Parse` fails: the goroutine logs exactly
one error, carrying the input and the reason, requests nothing, reports
nothing and calls `Done` once; logging it neither ends the process nor raises
a panic; and with the failing line taken out of the input, the reports and
the requests of the other lines are the same. -/
theorem parse_failure_is_local (reflectValue req : GoString) (net : GoString → Fetch)
    (err : ParseError) (hfail : Parse req = .error err) :
    logOf (processRequests.worker reflectValue net req) = [.logParseFailed req err]
      ∧ requestsOf (processRequests.worker reflectValue net req) = []
      ∧ stdoutOf (processRequests.worker reflectValue net req) = []
      ∧ (processRequests.worker reflectValue net req).count .done = 1
      ∧ (∀ s : State, (applyEvent s (.logParseFailed req err)).panicked = s.panicked
          ∧ (applyEvent s (.logParseFailed req err)).mainPC = s.mainPC)
      ∧ (∀ before after : List GoString,
          (before ++ req :: after).flatMap
              (fun l => stdoutOf (processRequests.worker reflectValue net l))
            = (before ++ after).flatMap
              (fun l => stdoutOf (processRequests.worker reflectValue net l))
          ∧ (before ++ req :: after).flatMap
              (fun l => requestsOf (processRequests.worker reflectValue net l))
            = (before ++ after).flatMap
              (fun l => requestsOf (processRequests.worker reflectValue net l))) := by
  have hw : processRequests.worker reflectValue net req = [.logParseFailed req err, .done] := by
    unfold processRequests.worker
    simp only [hfail]
  have h1 : stdoutOf (processRequests.worker reflectValue net req) = [] := by rw [hw]; rfl
  have h2 : requestsOf (processRequests.worker reflectValue net req) = [] := by rw [hw]; rfl
  refine ⟨by rw [hw]; rfl, h2, h1, by rw [hw]; simp, fun s => ⟨rfl, rfl⟩, ?_⟩
  intro before after
  simp only [List.flatMap_append, List.flatMap_cons, h1, h2, List.nil_append, and_self]

/-- C5, at the input `::not a url::`. -/
theorem parse_failure_is_local_witness :
    Parse (lit "::not a url::") = .error .missingProtocolScheme
      ∧ logOf (processRequests.worker (lit "M") echoNet (lit "::not a url::"))
        = [.logParseFailed (lit "::not a url::") .missingProtocolScheme] :=
  ⟨by decide,
    (parse_failure_is_local (lit "M") (lit "::not a url::") echoNet
      .missingProtocolScheme (by decide)).1⟩

/-- C7. For every input URL that parses and whose query holds a key `k` more
than once: among the pieces of the rebuilt query string between two `&`,
exactly one has the key `k`, and it is `k=marker`; read back, the rebuilt
query gives `k` the marker as its single value. -/
theorem rebuilt_query_single_instance (reflectValue req k : GoString) (u : URL)
    (hparse : Parse req = .ok u) (hdup : 2 ≤ (u.Query.get k).length) :
    ((mutate reflectValue u).RawQuery.splitOn 38).filter
        (fun seg => decide ((cut 61 seg).1 = QueryEscape k))
        = [encodePair k reflectValue]
      ∧ (mutate reflectValue u).Query.get k = [reflectValue] := by
  have hn : (mapKeys u.Query).Nodup := nodup_mapKeys_ParseQuery _
  have hsn : (sortKeys (mapKeys u.Query)).Nodup := sortKeys_nodup _ hn
  have hk : k ∈ mapKeys u.Query := by
    by_contra hk
    rw [Values_get_of_not_mem _ _ hk] at hdup
    simp at hdup
  have hks : k ∈ sortKeys (mapKeys u.Query) := (sortKeys_perm _).mem_iff.mpr hk
  have hcut : ∀ k', (cut 61 (encodePair k' reflectValue)).1 = QueryEscape k' := by
    intro k'
    unfold encodePair
    rw [List.append_assoc, List.singleton_append,
      cut_append_sep 61 _ _ (fun h => (QueryEscape_bytes k' 61 h).2.1 rfl)]
  constructor
  · rw [mutate_RawQuery, List.splitOn_intercalate _ 38
      (by
        intro l hl
        rw [List.mem_map] at hl
        obtain ⟨k', _, rfl⟩ := hl
        exact encodePair_no_amp k' reflectValue)
      (by
        intro h
        rw [List.map_eq_nil_iff] at h
        rw [h] at hks
        simp at hks)]
    rw [List.filter_map]
    have hfun : ((fun seg => decide ((cut 61 seg).1 = QueryEscape k))
        ∘ fun k' => encodePair k' reflectValue) = fun k' => decide (k' = k) := by
      funext k'
      simp only [Function.comp, hcut]
      by_cases h : k' = k
      · subst h; simp
      · have h' : QueryEscape k' ≠ QueryEscape k := fun e => h (QueryEscape_injective e)
        simp [h, h']
    rw [hfun, filter_eq_singleton _ k hsn hks]
    rfl
  · show (ParseQuery (mutate reflectValue u).RawQuery).get k = [reflectValue]
    rw [mutate_RawQuery, ParseQuery_intercalate reflectValue _ hsn (Query_keys_le u)]
    apply Values_get_of_mem
    · intro kv hkv
      rw [List.mem_map] at hkv
      obtain ⟨k', _, rfl⟩ := hkv
      rfl
    · simpa [mapKeys, List.map_map, Function.comp_def] using hks

/-- C7, at the URL `http://h/?a=1&a=2` with the marker `M`. -/
theorem rebuilt_query_single_instance_witness :
    Parse (lit "http://h/?a=1&a=2") = .ok repeatedKeyURL
      ∧ 2 ≤ (repeatedKeyURL.Query.get (lit "a")).length
      ∧ (mutate (lit "M") repeatedKeyURL).Query.get (lit "a") = [lit "M"] :=
  ⟨by decide, by decide,
    (rebuilt_query_single_instance (lit "M") (lit "http://h/?a=1&a=2") (lit "a") repeatedKeyURL
      (by decide) (by decide)).2⟩

/-- C2, evaluated: on a file with the one line `http://h/?x=1` and the default
flags, after `main` has sent the line, waited for the tick and closed the
queue, `wg.Wait()` lets it through at once (the counter of `wg` is zero, no
`Add` was called) and `main` returns while the goroutine launched for the
line has performed none of its effects and has not called `Done`. -/
theorem main_returns_with_probe_in_flight :
    (run oneLineConfig
        [.main, .main, .dispatcher, .dispatcher, .dispatcher, .tick, .main, .main, .main, .main,
          .main]).map
        (fun s => (s.mainPC, s.closed, s.wg, inFlight s, s.dones, s.stdout))
      = some (.exited, true, 0, 1, 0, []) :=
  rfl

/-- C10, evaluated: on an empty file with the default flags, once `main` has
closed the queue, `processRequests` leaves its loop, passes
`requestWg.Wait()` and calls `wg.Done()`: the counter of `wg`, on which no
`Add` was called, goes to `-1` and the call panics. -/
theorem wg_done_without_add_panics :
    (run emptyFileConfig [.main, .main, .dispatcher, .dispatcher, .dispatcher]).map
        (fun s => (s.dispPC, s.wg, s.panicked))
      = some (.signal, -1, true) := by
  decide

/-- C3, evaluated: on the file with the one line `http://h/?x=1` and the
default flags, the run of C2 ends with one URL received and one
`requestWg.Add(1)` but no `Done`: the goroutine launched for the URL still
has its `Done` to call when `main` returns, and after that nothing moves any
more, so the completions stay short of the URLs admitted. -/
theorem process_ends_with_add_and_no_done :
    (run oneLineConfig
        [.main, .main, .dispatcher, .dispatcher, .dispatcher, .tick, .main, .main, .main, .main,
          .main]).map
        (fun s => (s.mainPC, s.received.length, s.adds, s.dones, pendingDones s))
      = some (.exited, 1, 1, 0, 1)
      ∧ ∀ a s, run oneLineConfig
          [.main, .main, .dispatcher, .dispatcher, .dispatcher, .tick, .main, .main, .main,
            .main, .main] = some s → step oneLineConfig s a = none := by
  have h1 : (run oneLineConfig
        [.main, .main, .dispatcher, .dispatcher, .dispatcher, .tick, .main, .main, .main, .main,
          .main]).map
        (fun s => (s.mainPC, s.received.length, s.adds, s.dones, pendingDones s))
      = some (.exited, 1, 1, 0, 1) := rfl
  refine ⟨h1, ?_⟩
  intro a s hs
  rw [hs] at h1
  simp only [Option.map_some', Option.some.injEq, Prod.mk.injEq] at h1
  unfold step
  rw [if_pos (Or.inl h1.1)]

/-- C6, evaluated: with the flags `-rate 1 -delay 0` on a file of two lines,
`main` writes the first line and then waits on a ticker that never fires
(`time.Tick` returns a nil channel for a duration that is not positive); in
no state the program reaches is the second line written or the queue
closed. -/
theorem feeder_blocks_after_first_write :
    (run twoLineNoDelay [.main, .main]).map
        (fun s => (s.mainPC, s.tickReady, s.feederTrace, s.input))
      = some (.tick, false, [.send (lit "http://h/?x=1")], [lit "http://h/?y=2"])
      ∧ ∀ sched s, run twoLineNoDelay sched = some s →
          s.closed = false ∧ s.feederTrace.length ≤ 1 :=
  ⟨rfl, fun sched s hs => NoTickInv_run twoLineNoDelay (by decide) (by decide) sched s hs⟩

end ReflectionChecker
